import Mathlib

/-!
Verification of the textbase document library (src/textbase/docs/core.py)
against its natural-language specification.

Python strings are embedded as `List Char`; Python `None` vs a string value
is embedded as `Option (List Char)`; an instance `__dict__` is embedded as an
association list with Python-dict update semantics.  All definitions are
executable and translated from the source file `core.py`; the behaviour of
the two standard-library collaborators the source calls into
(`textwrap.TextWrapper(width=72, subsequent_indent='    ')` and
`email.parser.Parser`) is embedded from their documented Python 2.7
semantics, restricted where noted to the inputs the claims range over.
-/

set_option maxRecDepth 100000

namespace Textbase

/-- Embedded Python string. -/
abbrev Str := List Char

/-- Convenience conversion from a Lean string literal. -/
def strL (s : String) : Str := s.data

/-- Embedded Python value of a field: `none` is Python `None`. -/
abbrev Value := Option Str

/-- Characters for which Python 2 `str.isspace()` / `str.strip()` /
regex `\s` (byte strings) hold: space, tab, newline, carriage return,
vertical tab, form feed. -/
def isPySpace (c : Char) : Bool :=
  c = ' ' || c = '\t' || c = '\n' || c = '\r' || c = '\x0b' || c = '\x0c'

/-- Embedded instance `__dict__`: insertion-ordered key/value pairs with
unique keys maintained by `dictSet`. -/
abbrev Dict := List (Str × Value)

/-- Key membership test, Python `name in d`. -/
def hasKey (d : Dict) (k : Str) : Bool := d.any (fun kv => kv.1 = k)

/-- Lookup returning the stored value when the key is present. -/
def lookupKey : Dict → Str → Option Value
  | [], _ => none
  | kv :: rest, k => if kv.1 = k then some kv.2 else lookupKey rest k

/-- Python `d.get(k, None)`: a missing key and a stored `None` both give
`None`.  This is exactly the collapse `Field.Attribute.__get__` relies on. -/
def dictGet (d : Dict) (k : Str) : Value :=
  match lookupKey d k with
  | some v => v
  | none => none

/-- Python `d[k] = v`: overwrite the entry holding the key in place (keys
are unique in a Python dict, so replacing the first occurrence embeds the
in-place update), or append a new entry when the key is absent. -/
def dictSet : Dict → Str → Value → Dict
  | [], k, v => [(k, v)]
  | kv :: rest, k, v =>
    if kv.1 = k then (k, v) :: rest else kv :: dictSet rest k v

/-- Validation failure record: `ValidationError(field, msg)` from core.py. -/
structure VErr where
  field : Str
  msg : Str
deriving DecidableEq, Repr

/-- Embedded `Field` object (core.py lines 55-162).  A validator embeds a
Python callable that either returns silently (`none`) or raises
`ValueError(msg)` (`some msg`).  The defaulter receives the instance
`__dict__`, which is what the Python document object contributes to the
default-value computation. -/
structure Field where
  name : Str := []
  ordinal : Nat := 0
  initialValue : Value := none
  required : Bool := false
  defaulter : Dict → Value := fun _ => none
  validators : List (Value → Option Str) := []

/-- Embeds `validators.required` (validators.py): raise `ValueError` when
the value is `None`. -/
def requiredValidator : Value → Option Str :=
  fun v => match v with
  | none => some (strL "no value for required field")
  | some _ => none

/-- Embeds `Field.__init__` (core.py lines 99-112): assign the next
creation-counter ordinal, record the initial value and requiredness,
install the null defaulter and, for a required field, the `required`
validator.  Returns the new field and the updated counter. -/
def mkField (counter : Nat) (initial : Value) (req : Bool) : Field × Nat :=
  let ord := counter + 1
  ({ name := []
     ordinal := ord
     initialValue := initial
     required := req
     defaulter := fun _ => none
     validators := if req then [requiredValidator] else [] }, ord)

/-- Embeds `Field.validator` (core.py lines 143-149): append a function to
the validator list. -/
def Field.addValidator (f : Field) (fn : Value → Option Str) : Field :=
  { f with validators := f.validators ++ [fn] }

/-- Embeds `Field.defaulter` (core.py lines 123-134): replace the
default-value function. -/
def Field.setDefaulter (f : Field) (fn : Dict → Value) : Field :=
  { f with defaulter := fn }

/-- Embeds `Field.attach_to_class` (core.py lines 114-121): record the
attribute name the field is attached under. -/
def Field.attachToClass (f : Field) (n : Str) : Field :=
  { f with name := n }

/-- Embeds `Field.Attribute.__get__` (core.py lines 72-85) for instance
access: return the stored value unless it is `None`, in which case return
the (recomputed) default value. -/
def attrGet (f : Field) (d : Dict) : Value :=
  match dictGet d f.name with
  | none => f.defaulter d
  | some v => some v

/-- Embeds `Field.Attribute.__set__` (core.py lines 87-92). -/
def attrSet (f : Field) (d : Dict) (v : Value) : Dict :=
  dictSet d f.name v

/-- Embeds `Field.validate` (core.py lines 151-162): run every validator in
registration order, collecting a `ValidationError` per failure, never
stopping early. -/
def Field.validate (f : Field) (v : Value) : List VErr :=
  f.validators.filterMap (fun fn => (fn v).map (fun m => VErr.mk f.name m))

/-- Embeds `DocumentType.__init__` (core.py lines 171-182): from the class
attribute mapping (enumerated in an arbitrary order; `none` marks an
attribute with no `attach_to_class`, i.e. a non-field), attach each field
under its attribute name and sort the collected list by ordinal.  The
Python `list.sort` is embedded as an insertion sort, which agrees with any
sorting algorithm on the ordinal key. -/
def fieldLe : Field → Field → Prop := fun f g => f.ordinal ≤ g.ordinal

instance : DecidableRel fieldLe := fun f g => Nat.decLe f.ordinal g.ordinal

instance : IsTotal Field fieldLe := ⟨fun a b => Nat.le_total a.ordinal b.ordinal⟩

instance : IsTrans Field fieldLe := ⟨fun _ _ _ h1 h2 => Nat.le_trans h1 h2⟩

/-- Strict ordinal order on fields, used to state declaration order. -/
def fieldLt : Field → Field → Prop := fun f g => f.ordinal < g.ordinal

instance : IsAntisymm Field fieldLt :=
  ⟨fun _ _ h1 h2 => absurd h2 (Nat.lt_asymm h1)⟩

def docTypeFields (attrs : List (Str × Option Field)) : List Field :=
  List.insertionSort fieldLe
    (attrs.filterMap (fun na => na.2.map (fun f => f.attachToClass na.1)))

/-- Constructor-time error records (`Error(...)` entries aggregated into
`InvalidDocument`), one constructor per message format used by
`Document.__init__` (core.py lines 224-254). -/
inductive InitErr where
  | tooMany (maxArgs given : Nat)
  | unknownKeyword (name : Str)
  | multipleValues (name : Str)
deriving DecidableEq, Repr

/-- Embeds the positional-argument loop of `Document.__init__` (core.py
lines 241-245): walking the first `len(args)` field names in order, record
a `multipleValues` error when the name is already a key of `kwargs`, and
insert the positional value into `kwargs`.  Returns the accumulated errors
and the updated `kwargs`. -/
def bindPositional : List (Str × Value) → Dict → List InitErr × Dict
  | [], kw => ([], kw)
  | nv :: rest, kw =>
    let tl := bindPositional rest (dictSet kw nv.1 nv.2)
    ((if hasKey kw nv.1 then [InitErr.multipleValues nv.1] else []) ++ tl.1,
     tl.2)

/-- Embeds `Document.__init__` (core.py lines 224-257): record a too-many-
positionals error, an unknown-keyword error per unmatched keyword, and a
multiple-values error per field given both ways; set every field to its
argument value or its `initial_value`; raise the aggregate
`InvalidDocument` carrying the full error list when any error was
recorded. -/
def initErrs (fields : List Field) (args : List Value) (kwargs : Dict) :
    List InitErr :=
  (if args.length > fields.length then
     [InitErr.tooMany fields.length args.length]
   else []) ++
    (kwargs.filter
       (fun kv => !(fields.map Field.name).contains kv.1)).map
      (fun kv => InitErr.unknownKeyword kv.1) ++
    (bindPositional
      (List.zip ((fields.map Field.name).take args.length) args) kwargs).1

/-- The field binding loop of `Document.__init__` (core.py lines 247-251):
each field is set to its value from the positionals-merged keyword mapping
when its name is a key there, else to its `initial_value`. -/
def initBound (fields : List Field) (args : List Value) (kwargs : Dict) :
    Dict :=
  fields.foldl
    (fun d f =>
      match lookupKey
          (bindPositional
            (List.zip ((fields.map Field.name).take args.length) args)
            kwargs).2 f.name with
      | some v => dictSet d f.name v
      | none => dictSet d f.name f.initialValue)
    []

def initDoc (fields : List Field) (args : List Value) (kwargs : Dict) :
    Except (List InitErr) Dict :=
  match initErrs fields args kwargs with
  | [] => Except.ok (initBound fields args kwargs)
  | e => Except.error e

/-- Embeds `Document.validate` (core.py lines 284-296): concatenate the
failures of every field's `validate` applied to the attribute-read value
(declaration order across fields, registration order within a field) and
raise the aggregate `InvalidDocument` when the list is non-empty. -/
def validateDoc (fields : List Field) (d : Dict) : Except (List VErr) Unit :=
  match (fields.map (fun f => f.validate (attrGet f d))).flatten with
  | [] => Except.ok ()
  | e => Except.error e

/-!
The codec.  `Document.save` wraps each logical header line with
`textwrap.TextWrapper(width=72, subsequent_indent='    ')` (all other
options at their Python 2.7 defaults: `expand_tabs=True`,
`replace_whitespace=True`, `drop_whitespace=True`, `break_long_words=True`,
`break_on_hyphens=True`); `Document.open` parses the file with
`email.parser.Parser` and unfolds each header value with the nested
`unfold` function.
-/

/-- Embeds the nested `unfold` of `Document.open` (core.py lines 205-214)
as a character-at-a-time state machine.  `mode = true` corresponds to being
inside the `while char in ' \t\n'` loop that skips the whitespace run
started by a newline; reaching the end of the input in that mode is the
`StopIteration` escape of `iterator.next()`, embedded as `none`. -/
def unfoldM (mode : Bool) : Str → Option Str
  | [] => if mode then none else some []
  | c :: cs =>
    if mode then
      if c = ' ' || c = '\t' || c = '\n' then unfoldM true cs
      else (unfoldM false cs).map (fun r => ' ' :: c :: r)
    else
      if c = '\n' then unfoldM true cs
      else (unfoldM false cs).map (fun r => c :: r)

/-- The `unfold` entry point: start outside the whitespace-skipping loop. -/
def unfold (v : Str) : Option Str := unfoldM false v

/-- Embeds Python `str.expandtabs()` (tab size 8), applied by
`TextWrapper._munge_whitespace` before whitespace replacement: each tab is
replaced by spaces up to the next multiple of eight columns; newline and
carriage return reset the column. -/
def expandtabsAux : List Char → Nat → List Char
  | [], _ => []
  | c :: cs, col =>
    if c = '\t' then
      List.replicate (8 - col % 8) ' ' ++ expandtabsAux cs 0
    else if c = '\n' || c = '\r' then
      c :: expandtabsAux cs 0
    else
      c :: expandtabsAux cs (col + 1)

/-- Embeds `TextWrapper._munge_whitespace`: expand tabs, then translate
each remaining whitespace character (`\t\n\x0b\x0c\r`) to a space. -/
def mungeWhitespace (s : Str) : Str :=
  (expandtabsAux s 0).map
    (fun c =>
      if c = '\t' || c = '\n' || c = '\x0b' || c = '\x0c' || c = '\r' then ' '
      else c)

/-- Embeds `TextWrapper._split` for inputs containing no hyphen character:
`wordsep_re` then matches exactly the maximal whitespace runs (its other
two alternatives each require a `-`), so splitting with it partitions the
text into maximal runs of whitespace and of non-whitespace, empty pieces
discarded.  Every input the theorems below apply this to is hyphen-free.
Structured as fuel-based recursion (the fuel is the string length, enough
because every step consumes at least one character). -/
def chunksOfF : Nat → List Char → List (List Char)
  | 0, _ => []
  | _, [] => []
  | fuel + 1, c :: cs =>
    (c :: cs.takeWhile (fun d => isPySpace d == isPySpace c)) ::
      chunksOfF fuel (cs.dropWhile (fun d => isPySpace d == isPySpace c))

def chunksOf (s : Str) : List Str := chunksOfF s.length s

/-- Whole-chunk whitespace test, Python `chunk.strip() == ''` on a chunk
(chunks are runs, so this is equivalent to the first character's class). -/
def isWsChunk (c : Str) : Bool := c.all isPySpace

/-- Embeds the inner `while chunks:` loop of `TextWrapper._wrap_chunks`:
greedily move chunks onto the current line while the accumulated length
stays within the width.  Returns the taken chunks and the remainder. -/
def takeFits (width : Nat) (cur : Nat) : List Str → List Str × List Str
  | [] => ([], [])
  | c :: cs =>
    if cur + c.length ≤ width then
      let tr := takeFits width (cur + c.length) cs
      (c :: tr.1, tr.2)
    else
      ([], c :: cs)

/-- Sum of chunk lengths, the `cur_len` of `_wrap_chunks`. -/
def sumLen (l : List Str) : Nat := (l.map List.length).sum

/-- Embeds one iteration of the outer `while chunks:` loop of
`TextWrapper._wrap_chunks` (including `_handle_long_word` with
`break_long_words=True` and the two `drop_whitespace` deletions).  `first`
is true while no line has been emitted yet (Python tests `lines` for the
indent and for dropping leading whitespace).  Returns the emitted line, if
any, and the remaining chunks. -/
def dropLeadingWs (first : Bool) (chunks : List Str) : List Str :=
  match chunks with
  | c :: cs => if !first && isWsChunk c then cs else chunks
  | [] => chunks

def wrapStep (first : Bool) (chunks : List Str) : Option Str × List Str :=
  let indent : Str := if first then [] else strL "    "
  let width := 72 - indent.length
  let chunks1 := dropLeadingWs first chunks
  let tr := takeFits width 0 chunks1
  let tr2 : List Str × List Str :=
    match tr.2 with
    | c :: cs =>
      if c.length > width then
        let spaceLeft := width - sumLen tr.1
        (tr.1 ++ [c.take spaceLeft], c.drop spaceLeft :: cs)
      else (tr.1, c :: cs)
    | [] => (tr.1, [])
  let taken :=
    match tr2.1.getLast? with
    | some l => if isWsChunk l then tr2.1.dropLast else tr2.1
    | none => tr2.1
  if taken = [] then (none, tr2.2)
  else (some (indent ++ taken.flatten), tr2.2)

/-- Embeds the outer loop of `TextWrapper._wrap_chunks` with fuel (every
iteration either deletes a chunk or shortens the first chunk, so the fuel
used by `fill` below is sufficient). -/
def wrapAll (fuel : Nat) (first : Bool) (chunks : List Str) : List Str :=
  match fuel with
  | 0 => []
  | fuel + 1 =>
    match chunks with
    | [] => []
    | _ =>
      match wrapStep first chunks with
      | (some line, rest) => line :: wrapAll fuel false rest
      | (none, rest) => wrapAll fuel first rest

/-- Embeds `TextWrapper.fill` for the configuration used by
`Document.save`: munge whitespace, split into chunks, wrap, and join the
lines with newlines. -/
def fill (s : Str) : Str :=
  let chunks := chunksOf (mungeWhitespace s)
  List.intercalate ['\n']
    (wrapAll (sumLen chunks + chunks.length + 1) true chunks)

/-- Embeds the logical header line `'%s: %s' % (field.name, value)` of
`Document.save` (core.py line 318). -/
def headerLine (name : Str) (v : Str) : Str := name ++ ':' :: ' ' :: v

/-- Embeds the per-field write of `Document.save` (core.py lines 315-319):
nothing when the raw `__dict__` value is `None` (or absent), else the
wrapped logical line followed by a newline.  Note the raw dictionary
access: computed defaults are never consulted here. -/
def emitHeader (f : Field) (d : Dict) : Str :=
  match dictGet d f.name with
  | none => []
  | some v => fill (headerLine f.name v) ++ ['\n']

/-- The header section `Document.save` writes: one wrapped logical line per
explicitly-set field, in declaration order. -/
def headerText (fields : List Field) (d : Dict) : Str :=
  (fields.map (fun f => emitHeader f d)).flatten

/-- Embeds the file content written by `Document.save` (core.py lines
312-324).  `body` is the result of `self.read()`; after the header lines,
a non-empty body is preceded by one blank line and followed, when it does
not already end in one, by a final newline. -/
def saveContent (fields : List Field) (d : Dict) (body : Str) : Str :=
  headerText fields d ++
    (if body = [] then []
     else '\n' :: (body ++ (if body.getLast? = some '\n' then [] else ['\n'])))

/-- Splits a string into its physical lines, each keeping its terminating
newline (the final line may lack one), as Python file iteration does. -/
def splitLinesAux (cur : Str) : Str → List Str
  | [] => if cur = [] then [] else [cur.reverse]
  | c :: cs =>
    if c = '\n' then (cur.reverse ++ ['\n']) :: splitLinesAux [] cs
    else splitLinesAux (c :: cur) cs

def splitLinesKeep (s : Str) : List Str := splitLinesAux [] s

/-- Embeds the header-section cut of `email.feedparser`: header lines are
the physical lines before the first blank line (a line that is just a
newline; `NLCRE.match` anchors at the start of the line). -/
def headerSection (lines : List Str) : List Str :=
  lines.takeWhile (fun l =>
    match l with
    | c :: _ => !(c = '\n' || c = '\r')
    | [] => false)

/-- Python `str.lstrip()`. -/
def lstrip (s : Str) : Str := s.dropWhile isPySpace

/-- One flush of `email.feedparser._parse_headers`: the header value is the
concatenation of the collected physical pieces with the final character
(the trailing newline of the last piece) removed. -/
def flushHeader (n : Str) (parts : List Str) : Str × Str :=
  (n, parts.flatten.dropLast)

/-- Embeds the loop of `email.feedparser._parse_headers` (Python 2.7): a
line starting with space or tab continues the current header (ignored when
there is none); otherwise the current header is flushed and the new line
is split at its first colon, the name before it, the first value piece the
lstripped remainder (lines with no colon are recorded as defects and
skipped; the `From ` envelope branch never fires for the inputs here, whose
names contain no space). -/
def parseHdrsAux (st : Option (Str × List Str)) (acc : List (Str × Str)) :
    List Str → List (Str × Str)
  | [] =>
    match st with
    | some nv => acc ++ [flushHeader nv.1 nv.2]
    | none => acc
  | l :: ls =>
    match l with
    | c :: _ =>
      if c = ' ' || c = '\t' then
        match st with
        | some nv => parseHdrsAux (some (nv.1, nv.2 ++ [l])) acc ls
        | none => parseHdrsAux none acc ls
      else
        let acc2 :=
          match st with
          | some nv => acc ++ [flushHeader nv.1 nv.2]
          | none => acc
        let sp := l.span (fun d => !(d = ':'))
        match sp.2 with
        | _ :: rest => parseHdrsAux (some (sp.1, [lstrip rest])) acc2 ls
        | [] => parseHdrsAux none acc2 ls
    | [] => parseHdrsAux st acc ls

def parseHdrs (lines : List Str) : List (Str × Str) :=
  parseHdrsAux none [] lines

/-- Embeds `dict((k, unfold(v)) for k, v in msg.items())` in
`Document.open` (core.py line 218): in Python 2 a `StopIteration` escaping
`unfold` silently terminates the generator expression, so the keyword list
is truncated at the first value on which `unfold` raises. -/
def foldKwargs : List (Str × Str) → List (Str × Value)
  | [] => []
  | kv :: rest =>
    match unfold kv.2 with
    | none => []
    | some w => (kv.1, some w) :: foldKwargs rest

/-- Python `dict(pairs)`: later duplicates win. -/
def dictOfPairs (pairs : List (Str × Value)) : Dict :=
  pairs.foldl (fun d kv => dictSet d kv.1 kv.2) []

/-- Embeds `Document.open` (core.py lines 198-222) on the file content:
parse the header section, unfold each value, and construct the document
with the results as keyword arguments.  The opened document's `_body` is
`None`; its body is read lazily by `readBody` below. -/
def openDoc (fields : List Field) (content : Str) : Except (List InitErr) Dict :=
  initDoc fields []
    (dictOfPairs (foldKwargs (parseHdrs (headerSection (splitLinesKeep content)))))

/-- Python `line.strip() == ''`. -/
def isBlankLine (l : Str) : Bool := l.all isPySpace

/-- The universal-newline translation `io.open(path, 'r')` applies when
reading (Python 2.7 `io`, default `newline=None`): each `'\r\n'` pair and
each lone `'\r'` becomes a single `'\n'`.  (`Document.open` instead uses
the builtin `open(path, 'r')`, which performs no translation.) -/
def univNl : Str → Str
  | [] => []
  | c :: cs =>
    if c = '\r' then
      match cs with
      | c2 :: rest =>
        if c2 = '\n' then '\n' :: univNl rest else '\n' :: univNl (c2 :: rest)
      | [] => ['\n']
    else c :: univNl cs

/-- Embeds `Document.read` for a document opened from a file (core.py lines
263-273): the file is read through `io.open(path, 'r')`, so the content is
first subjected to the universal-newline translation; then lines up to and
including the first blank line are skipped and the rest returned (empty
when there is no blank line). -/
def readBody (content : Str) : Str :=
  match (splitLinesKeep (univNl content)).dropWhile (fun l => !isBlankLine l) with
  | [] => []
  | _ :: after => after.flatten

/-!
Auxiliary definitions used to state the claims.
-/

/-- Sequential field creation: declaring fields `f1, ..., fn` in source
order runs `Field.__init__` once per field, threading the process-wide
`Field.creation_counter`.  Returns the named field list and the final
counter. -/
def createFieldsAux (c : Nat) :
    List (Str × Value × Bool) → List (Str × Field) × Nat
  | [] => ([], c)
  | spec :: rest =>
    let fc := mkField c spec.2.1 spec.2.2
    let tl := createFieldsAux fc.2 rest
    ((spec.1, fc.1) :: tl.1, tl.2)

/-- A character that can appear inside a word for the wrapping round-trip
statements: not Python whitespace and not a hyphen (the hyphen alternatives
of `wordsep_re` would split around it). -/
def wordChar (c : Char) : Bool := !isPySpace c && !(c = '-')

/-- A word that wraps safely on a continuation line: non-empty, at most 68
characters (the width left of the 72 columns after the 4-space indent),
made of word characters. -/
def goodWord (w : Str) : Prop :=
  w ≠ [] ∧ w.length ≤ 68 ∧ ∀ c ∈ w, wordChar c = true

/-- A field name as Python identifiers give them: non-empty, word
characters, no colon, and short enough that `name: ` fits the 72 columns. -/
def goodName (n : Str) : Prop :=
  n ≠ [] ∧ (∀ c ∈ n, wordChar c = true ∧ c ≠ ':') ∧ n.length + 2 ≤ 72

/-- The chunk sequence of a space-separated word list: words interleaved
with single-space chunks. -/
def sepWords : List Str → List Str
  | [] => []
  | [w] => [w]
  | w :: rest => w :: [' '] :: sepWords rest

/-- Words joined by single spaces. -/
def joinWords : List Str → Str
  | [] => []
  | [w] => w
  | w :: rest => w ++ ' ' :: joinWords rest

/-- Splitting a string at every space (the left inverse of `joinWords` on
every string). -/
def splitSpAux (cur : Str) : Str → List Str
  | [] => [cur.reverse]
  | c :: cs =>
    if c = ' ' then cur.reverse :: splitSpAux [] cs
    else splitSpAux (c :: cur) cs

def splitSp (s : Str) : List Str := splitSpAux [] s

/-- A header value that survives the wrap/unfold round trip: empty, or
single-space-separated good words. -/
def wrapSafe (v : Str) : Prop :=
  v = [] ∨ ∀ w ∈ splitSp v, goodWord w

instance (w : Str) : Decidable (goodWord w) := by
  unfold goodWord
  infer_instance

instance (n : Str) : Decidable (goodName n) := by
  unfold goodName
  infer_instance

instance (v : Str) : Decidable (wrapSafe v) := by
  unfold wrapSafe
  infer_instance

/-- The continuation-line indent `subsequent_indent='    '` of
`Document.save`. -/
def indent4 : Str := strL "    "

/-!
Concrete document classes used by the witnesses and counterexamples, built
exactly the way a Python class body builds them: `mkField` then
`attach_to_class`, with decorators embedded by `setDefaulter` and
`addValidator`.
-/

/-- Example: `foo = Field(initial_value='bar')`, attached as `foo`. -/
def exFoo : Field := ((mkField 0 (some (strL "bar")) false).1).attachToClass (strL "foo")

/-- Example: `absent = Field()`, attached as `absent`. -/
def exAbsent : Field := ((mkField 1 none false).1).attachToClass (strL "absent")

/-- Example: `title = Field(initial_value='Untitled')`. -/
def exTitle : Field := ((mkField 2 (some (strL "Untitled")) false).1).attachToClass (strL "title")

/-- Example: `url = Field()` with `@url.defaulter` returning the lowercased
title, read through the `title` attribute as the Python defaulter does. -/
def exUrl : Field :=
  (((mkField 3 none false).1).attachToClass (strL "url")).setDefaulter
    (fun d => (attrGet exTitle d).map (fun s => s.map Char.toLower))

/-- Example plain fields `one`, `two`, `three` as in the constructor
tests. -/
def exOne : Field := ((mkField 4 none false).1).attachToClass (strL "one")

def exTwo : Field := ((mkField 5 none false).1).attachToClass (strL "two")

def exThree : Field := ((mkField 6 none false).1).attachToClass (strL "three")

/-- Example field `f` used by the wrapping counterexample. -/
def exF : Field := ((mkField 7 none false).1).attachToClass (strL "f")

/-- An 80-character word: longer than any line width the wrapper has, so
`break_long_words=True` splits it. -/
def longWord : Str := List.replicate 80 'a'

/-!
Lemmas about the dictionary embedding.
-/

deriving instance DecidableEq for Except

theorem lookupKey_dictSet (d : Dict) (k : Str) (v : Value) (k2 : Str) :
    lookupKey (dictSet d k v) k2 = if k2 = k then some v else lookupKey d k2 := by
  induction d with
  | nil =>
    simp only [dictSet, lookupKey]
    by_cases h : k2 = k
    · simp [h]
    · have h2 : ¬k = k2 := fun hh => h hh.symm
      simp [h, h2]
  | cons kv rest ih =>
    simp only [dictSet]
    by_cases h1 : kv.1 = k
    · simp only [if_pos h1, lookupKey]
      by_cases h2 : k2 = k
      · simp [h2]
      · have h3 : ¬k = k2 := fun hh => h2 hh.symm
        have h4 : ¬kv.1 = k2 := fun hh => h3 (h1.symm.trans hh)
        simp [h2, h3, h4]
    · simp only [if_neg h1, lookupKey]
      by_cases h2 : kv.1 = k2
      · have h3 : ¬k2 = k := fun hh => h1 (h2.trans hh)
        simp [h2, h3]
      · simp [h2, ih]

theorem dictGet_dictSet (d : Dict) (k : Str) (v : Value) (k2 : Str) :
    dictGet (dictSet d k v) k2 = if k2 = k then v else dictGet d k2 := by
  simp only [dictGet, lookupKey_dictSet]
  by_cases h : k2 = k <;> simp [h]

theorem hasKey_lookupKey (d : Dict) (k : Str) :
    hasKey d k = (lookupKey d k).isSome := by
  induction d with
  | nil => rfl
  | cons kv rest ih =>
    simp only [hasKey, List.any_cons, lookupKey]
    by_cases h : kv.1 = k
    · simp [h]
    · simpa [h, hasKey] using ih

theorem hasKey_dictSet (d : Dict) (k : Str) (v : Value) (k2 : Str) :
    hasKey (dictSet d k v) k2 = (k2 = k || hasKey d k2) := by
  simp only [hasKey_lookupKey, lookupKey_dictSet]
  by_cases h : k2 = k <;> simp [h]

theorem dictSet_fresh (d : Dict) (k : Str) (v : Value) (h : hasKey d k = false) :
    dictSet d k v = d ++ [(k, v)] := by
  induction d with
  | nil => rfl
  | cons kv rest ih =>
    simp only [hasKey, List.any_cons, Bool.or_eq_false_iff] at h
    simp only [dictSet, if_neg (by simpa using h.1), List.cons_append]
    exact congrArg _ (ih (by simpa [hasKey] using h.2))

/-!
Claim C5 — attribute reads: explicit value, else recomputed default, else
null; `initial_value` is bound at construction.
-/

/-- C5: reading a field returns the explicitly-set value when one is
stored; otherwise the result of the field's default-value function applied
to the document (recomputed on every access, so changing a dependency
field changes the next read), or null when no default function is
registered.  A field with `initial_value='bar'` and no explicit value
reads as `'bar'` after construction, and a plain unset field reads as
null. -/
theorem c5_attribute_get :
    (∀ (f : Field) (d : Dict),
       attrGet f d =
         match dictGet d f.name with
         | none => f.defaulter d
         | some v => some v) ∧
    (initDoc [exFoo, exAbsent] [] [] =
       Except.ok [(strL "foo", some (strL "bar")), (strL "absent", none)] ∧
     attrGet exFoo [(strL "foo", some (strL "bar")), (strL "absent", none)] =
       some (strL "bar") ∧
     attrGet exAbsent [(strL "foo", some (strL "bar")), (strL "absent", none)] =
       none) ∧
    (initDoc [exTitle, exUrl] [] [] =
       Except.ok [(strL "title", some (strL "Untitled")), (strL "url", none)] ∧
     attrGet exUrl [(strL "title", some (strL "Untitled")), (strL "url", none)] =
       some (strL "untitled") ∧
     attrGet exUrl
         (attrSet exTitle
           [(strL "title", some (strL "Untitled")), (strL "url", none)]
           (some (strL "FooBar"))) =
       some (strL "foobar")) := by
  refine ⟨fun f d => rfl, by decide, by decide⟩

/-!
Claim C9 — the body section written by save.
-/

/-- C9: after the header lines, `save` writes, for a non-empty body, one
blank-line separator then the body verbatim plus a final newline when the
body does not end in one (so the output always ends in a newline); for an
empty body nothing at all follows the last header line. -/
theorem c9_save_body (fields : List Field) (d : Dict) (body : Str) :
    saveContent fields d body =
      headerText fields d ++
        (if body = [] then []
         else '\n' ::
           (body ++ (if body.getLast? = some '\n' then [] else ['\n']))) ∧
    (saveContent fields d body).getLast? =
      (if body = [] then (headerText fields d).getLast? else some '\n') := by
  refine ⟨rfl, ?_⟩
  by_cases h : body = []
  · simp [saveContent, h]
  · by_cases h2 : body.getLast? = some '\n'
    · have hc : ('\n' :: body).getLast? = some '\n' := by
        rw [show ('\n' :: body) = ['\n'] ++ body from rfl, List.getLast?_append, h2]
        rfl
      simp [saveContent, h, h2, List.getLast?_append, hc]
    · have hc : ('\n' :: (body ++ ['\n'])).getLast? = some '\n' := by
        rw [show ('\n' :: (body ++ ['\n'])) = ['\n'] ++ (body ++ ['\n']) from rfl,
          List.getLast?_append, List.getLast?_append]
        rfl
      simp [saveContent, h, h2, List.getLast?_append, hc]

/-!
Claim C10 — explicitly assigning None makes a field indistinguishable from
an unset field.
-/

/-- C10: after assigning the null value to a field, every dictionary read
of that field's name yields null (other names unchanged), the attribute
read falls through to the default-value function, and save omits the
field's header line entirely. -/
theorem c10_assign_none (f : Field) (d : Dict) :
    (∀ k, dictGet (attrSet f d none) k =
       if k = f.name then none else dictGet d k) ∧
    attrGet f (attrSet f d none) = f.defaulter (attrSet f d none) ∧
    emitHeader f (attrSet f d none) = [] ∧
    (∀ fields : List Field,
       headerText fields (attrSet f d none) =
         (fields.map (fun g =>
            if g.name = f.name then []
            else emitHeader g (attrSet f d none))).flatten) := by
  have hget : ∀ k, dictGet (attrSet f d none) k =
      if k = f.name then none else dictGet d k :=
    fun k => dictGet_dictSet d f.name none k
  have hself : dictGet (attrSet f d none) f.name = none := by
    simpa using hget f.name
  refine ⟨hget, ?_, ?_, ?_⟩
  · simp [attrGet, hself]
  · simp [emitHeader, hself]
  · intro fields
    unfold headerText
    refine congrArg _ (List.map_congr_left ?_)
    intro g _
    by_cases hg : g.name = f.name
    · simp [hg, emitHeader, hself]
    · simp [hg]

/-!
Claim C8 — the header lines save emits.
-/

/-- C8: `save` emits one logical header line per field, in declaration
order, for exactly the fields whose raw stored value is non-null; values
that exist only as computed defaults are never consulted, and a document
none of whose fields has a stored value produces an empty header
section. -/
theorem c8_header_lines (fields : List Field) (d : Dict) :
    headerText fields d =
      (fields.filterMap (fun f =>
         (dictGet d f.name).map
           (fun v => fill (headerLine f.name v) ++ ['\n']))).flatten ∧
    ((∀ f ∈ fields, dictGet d f.name = none) → headerText fields d = []) := by
  constructor
  · induction fields with
    | nil => rfl
    | cons f fs ih =>
      simp only [headerText, List.map_cons, List.filterMap_cons] at ih ⊢
      cases h : dictGet d f.name with
      | none => simpa [emitHeader, h] using ih
      | some v => simpa [emitHeader, h] using ih
  · intro hall
    induction fields with
    | nil => rfl
    | cons f fs ih =>
      simp only [headerText, List.map_cons, List.flatten_cons]
      rw [emitHeader, hall f (by simp)]
      simpa [headerText] using ih (fun g hg => hall g (by simp [hg]))

/-- Witness for C8: a document whose single field has only a computed
default (raw value null) saves with an empty header section. -/
theorem c8_header_lines_witness :
    (∀ f ∈ [exUrl], dictGet [(strL "url", none)] f.name = none) ∧
    headerText [exUrl] [(strL "url", none)] = [] :=
  ⟨by decide, (c8_header_lines [exUrl] [(strL "url", none)]).2 (by decide)⟩

/-!
Claim C2 — declaration-order field collection via strictly increasing
ordinals.
-/

theorem createFieldsAux_ordinals (c : Nat) (specs : List (Str × Value × Bool)) :
    ((createFieldsAux c specs).1.map (fun nf => nf.2.ordinal)) =
      List.range' (c + 1) specs.length := by
  induction specs generalizing c with
  | nil => rfl
  | cons spec rest ih =>
    simp only [createFieldsAux, List.map_cons, List.length_cons]
    rw [show (mkField c spec.2.1 spec.2.2).1.ordinal = c + 1 from rfl,
      show (mkField c spec.2.1 spec.2.2).2 = c + 1 from rfl, ih]
    rfl

/-- C2: fields declared in source order carry strictly increasing
ordinals (the process-wide creation counter), and the metaclass's sort by
ordinal therefore rebuilds exactly the declaration order from the class
attribute mapping, whatever order that mapping is enumerated in and
whatever non-field attributes accompany the fields. -/
theorem c2_field_declaration_order (c : Nat)
    (specs : List (Str × Value × Bool)) (junk : List Str)
    (attrs : List (Str × Option Field))
    (hperm : attrs.Perm
      (((createFieldsAux c specs).1.map (fun nf => (nf.1, some nf.2))) ++
        junk.map (fun n => (n, none)))) :
    List.Pairwise fieldLt ((createFieldsAux c specs).1.map (fun nf => nf.2)) ∧
    docTypeFields attrs =
      (createFieldsAux c specs).1.map (fun nf => nf.2.attachToClass nf.1) := by
  have hords := createFieldsAux_ordinals c specs
  have hpw : List.Pairwise fieldLt
      ((createFieldsAux c specs).1.map (fun nf => nf.2)) := by
    have h1 : List.Pairwise (fun a b => a < b)
        (((createFieldsAux c specs).1.map (fun nf => nf.2)).map
          Field.ordinal) := by
      rw [List.map_map]
      rw [show (Field.ordinal ∘ fun nf => nf.2) =
        (fun nf : Str × Field => nf.2.ordinal) from rfl, hords]
      exact List.pairwise_lt_range' _ _
    rw [List.pairwise_map] at h1
    exact h1
  refine ⟨hpw, ?_⟩
  set declared :=
    (createFieldsAux c specs).1.map (fun nf => nf.2.attachToClass nf.1)
    with hdecl
  have hdeclords : declared.map Field.ordinal = List.range' (c + 1) specs.length := by
    rw [hdecl, List.map_map]
    rw [show (Field.ordinal ∘ fun nf : Str × Field => nf.2.attachToClass nf.1) =
      (fun nf : Str × Field => nf.2.ordinal) from rfl, hords]
  have hfm : attrs.filterMap
      (fun na => na.2.map (fun f => f.attachToClass na.1)) |>.Perm declared := by
    have h2 := hperm.filterMap (fun na : Str × Option Field =>
      na.2.map (fun f => f.attachToClass na.1))
    rw [List.filterMap_append, List.filterMap_map, List.filterMap_map] at h2
    have h3 : List.filterMap
        ((fun na : Str × Option Field =>
           na.2.map (fun f => f.attachToClass na.1)) ∘
          (fun nf : Str × Field => (nf.1, some nf.2)))
        (createFieldsAux c specs).1 = declared := by
      rw [hdecl]
      rw [show ((fun na : Str × Option Field =>
           na.2.map (fun f => f.attachToClass na.1)) ∘
          (fun nf : Str × Field => (nf.1, some nf.2))) =
        (some ∘ fun nf : Str × Field => nf.2.attachToClass nf.1) from rfl]
      rw [List.filterMap_eq_map]
    have h4 : List.filterMap
        ((fun na : Str × Option Field =>
           na.2.map (fun f => f.attachToClass na.1)) ∘
          (fun n : Str => (n, none))) junk = [] := by
      rw [List.filterMap_eq_nil_iff]
      intro a _
      rfl
    rw [h3, h4, List.append_nil] at h2
    exact h2
  have hsortperm : docTypeFields attrs |>.Perm declared := by
    unfold docTypeFields
    exact (List.perm_insertionSort fieldLe _).trans hfm
  have hsorted1 : List.Sorted fieldLe (docTypeFields attrs) :=
    List.sorted_insertionSort fieldLe _
  have hnodup : ((docTypeFields attrs).map Field.ordinal).Nodup := by
    have := (hsortperm.map Field.ordinal)
    rw [hdeclords] at this
    exact this.nodup_iff.mpr (List.nodup_range' _ _)
  have hsortedlt : List.Sorted fieldLt (docTypeFields attrs) := by
    have hne : List.Pairwise (fun f g : Field => f.ordinal ≠ g.ordinal)
        (docTypeFields attrs) := List.pairwise_map.mp hnodup
    exact (hsorted1.and hne).imp
      (fun hh => Nat.lt_of_le_of_ne hh.1 hh.2)
  have hdeclsorted : List.Sorted fieldLt declared := by
    have h1 : List.Pairwise (fun a b : Nat => a < b)
        (declared.map Field.ordinal) := by
      rw [hdeclords]
      exact List.pairwise_lt_range' _ _
    have h2 := (List.pairwise_map (f := Field.ordinal) (l := declared)).mp h1
    exact h2
  exact List.eq_of_perm_of_sorted hsortperm hsortedlt hdeclsorted

/-- Witness for C2: a two-field class whose attribute mapping is
enumerated in reverse with an interleaved non-field attribute still
collects `_fields` in declaration order. -/
theorem c2_field_declaration_order_witness :
    docTypeFields
        [(strL "b", some (mkField 1 none false).1),
         (strL "a", some (mkField 0 none false).1),
         (strL "m", none)] =
      [((mkField 0 none false).1).attachToClass (strL "a"),
       ((mkField 1 none false).1).attachToClass (strL "b")] := by
  have h := c2_field_declaration_order 0
    [(strL "a", none, false), (strL "b", none, false)] [strL "m"]
    [(strL "b", some (mkField 1 none false).1),
     (strL "a", some (mkField 0 none false).1),
     (strL "m", none)]
    (List.Perm.swap (strL "a", some (mkField 0 none false).1)
      (strL "b", some (mkField 1 none false).1) [(strL "m", none)])
  exact h.2

/-!
Claim C3 — constructor argument binding and error aggregation.
-/

theorem bindPositional_errs (pairs : List (Str × Value)) (kw : Dict)
    (h : (pairs.map Prod.fst).Nodup) :
    (bindPositional pairs kw).1 =
      ((pairs.map Prod.fst).filter (fun n => hasKey kw n)).map
        InitErr.multipleValues := by
  induction pairs generalizing kw with
  | nil => rfl
  | cons nv rest ih =>
    simp only [List.map_cons, List.nodup_cons] at h
    have hrest : ∀ m ∈ rest.map Prod.fst,
        hasKey (dictSet kw nv.1 nv.2) m = hasKey kw m := by
      intro m hm
      rw [hasKey_dictSet]
      have : ¬m = nv.1 := fun hh => h.1 (hh ▸ hm)
      simp [this]
    simp only [bindPositional, List.map_cons, List.filter_cons]
    rw [ih _ h.2, List.filter_congr hrest]
    by_cases hk : hasKey kw nv.1 <;> simp [hk]

theorem map_fst_zip_of_le {α β : Type} (l1 : List α) (l2 : List β)
    (h : l1.length ≤ l2.length) : (l1.zip l2).map Prod.fst = l1 := by
  induction l1 generalizing l2 with
  | nil => rfl
  | cons a t ih =>
    cases l2 with
    | nil => simp at h
    | cons b t2 =>
      simp only [List.zip_cons_cons, List.map_cons, List.cons.injEq]
      exact ⟨trivial, ih t2 (by simpa using h)⟩

/-- C3: construction fails if and only if too many positional arguments
are given, or some keyword names no field, or some field receives a value
both positionally and by keyword; the aggregate error is exactly the list
of one entry per violation found (all of them, not just the first), and
otherwise construction succeeds outright.  The hypotheses state that field
names and keyword names are duplicate-free, as Python class bodies and
call sites guarantee. -/
theorem c3_constructor_errors (fields : List Field) (args : List Value)
    (kwargs : Dict)
    (hN : (fields.map Field.name).Nodup)
    (hK : (kwargs.map Prod.fst).Nodup) :
    (∀ e, initDoc fields args kwargs = Except.error e ↔
       (e =
          (if args.length > fields.length then
             [InitErr.tooMany fields.length args.length] else []) ++
            (kwargs.filter
               (fun kv => !(fields.map Field.name).contains kv.1)).map
              (fun kv => InitErr.unknownKeyword kv.1) ++
            (((fields.map Field.name).take args.length).filter
               (fun n => hasKey kwargs n)).map InitErr.multipleValues ∧
        e ≠ [])) ∧
    ((∃ e, initDoc fields args kwargs = Except.error e) ↔
       (args.length > fields.length ∨
        (∃ kv ∈ kwargs, kv.1 ∉ fields.map Field.name) ∨
        (∃ n ∈ (fields.map Field.name).take args.length,
           hasKey kwargs n = true))) ∧
    (∀ e, initDoc fields args kwargs = Except.error e →
       e.length =
         (if args.length > fields.length then 1 else 0) +
           (kwargs.filter
              (fun kv => !(fields.map Field.name).contains kv.1)).length +
           (((fields.map Field.name).take args.length).filter
              (fun n => hasKey kwargs n)).length) ∧
    ((∃ dd, initDoc fields args kwargs = Except.ok dd) ↔
       ¬(args.length > fields.length ∨
         (∃ kv ∈ kwargs, kv.1 ∉ fields.map Field.name) ∨
         (∃ n ∈ (fields.map Field.name).take args.length,
            hasKey kwargs n = true))) := by
  have htake : ((fields.map Field.name).take args.length).Nodup :=
    hN.sublist (List.take_sublist _ _)
  have hzip : (List.zip ((fields.map Field.name).take args.length) args).map
      Prod.fst = (fields.map Field.name).take args.length :=
    map_fst_zip_of_le _ _ (by simpa using List.length_take_le _ _)
  have herrs3 :
      (bindPositional
        (List.zip ((fields.map Field.name).take args.length) args) kwargs).1 =
      (((fields.map Field.name).take args.length).filter
        (fun n => hasKey kwargs n)).map InitErr.multipleValues := by
    rw [bindPositional_errs _ _ (by rw [hzip]; exact htake), hzip]
  set E :=
    (if args.length > fields.length then
       [InitErr.tooMany fields.length args.length] else []) ++
      (kwargs.filter
         (fun kv => !(fields.map Field.name).contains kv.1)).map
        (fun kv => InitErr.unknownKeyword kv.1) ++
      (((fields.map Field.name).take args.length).filter
         (fun n => hasKey kwargs n)).map InitErr.multipleValues with hE
  have hEiff : E ≠ [] ↔
      (args.length > fields.length ∨
       (∃ kv ∈ kwargs, kv.1 ∉ fields.map Field.name) ∨
       (∃ n ∈ (fields.map Field.name).take args.length,
          hasKey kwargs n = true)) := by
    rw [hE]
    constructor
    · intro hne
      by_contra hcon
      push_neg at hcon
      obtain ⟨h1, h2, h3⟩ := hcon
      apply hne
      have e2 : (kwargs.filter
          (fun kv => !(fields.map Field.name).contains kv.1)) = [] := by
        rw [List.filter_eq_nil_iff]
        intro kv hkv
        simpa using h2 kv hkv
      have e3 : (((fields.map Field.name).take args.length).filter
          (fun n => hasKey kwargs n)) = [] := by
        rw [List.filter_eq_nil_iff]
        intro n hn
        simpa using h3 n hn
      have h1b : ¬(args.length > fields.length) := not_lt.mpr h1
      rw [if_neg h1b, e2, e3]
      simp
    · rintro (h1 | ⟨kv, hkv, hnm⟩ | ⟨n, hn, hk⟩) hnil
      · rw [List.append_eq_nil, List.append_eq_nil] at hnil
        rw [if_pos h1] at hnil
        cases hnil.1.1
      · rw [List.append_eq_nil, List.append_eq_nil, List.map_eq_nil_iff,
          List.filter_eq_nil_iff] at hnil
        exact (by simpa using hnil.1.2 kv hkv : kv.1 ∈ fields.map Field.name)
          |> hnm
      · rw [List.append_eq_nil, List.map_eq_nil_iff,
          List.filter_eq_nil_iff] at hnil
        exact (by simpa using hnil.2 n hn : ¬hasKey kwargs n = true) hk
  have hEerrs : initErrs fields args kwargs = E := by
    rw [hE]
    unfold initErrs
    rw [herrs3]
  by_cases hEnil : E = []
  · have hD : initDoc fields args kwargs =
        Except.ok (initBound fields args kwargs) := by
      unfold initDoc
      rw [hEerrs, hEnil]
    have hnoviol := (not_iff_not.mpr hEiff).mp (by simp [hEnil])
    push_neg at hnoviol
    refine ⟨?_, ?_, ?_, ?_⟩
    · intro e
      rw [hD]
      constructor
      · intro h; cases h
      · rintro ⟨rfl, hne⟩
        exact absurd hEnil hne
    · rw [hD]
      constructor
      · rintro ⟨e, he⟩; cases he
      · intro hviol
        exfalso
        exact (not_iff_not.mpr hEiff |>.mp (by simp [hEnil])) hviol
    · intro e he
      rw [hD] at he
      cases he
    · rw [hD]
      constructor
      · intro _
        exact (not_iff_not.mpr hEiff).mp (by simp [hEnil])
      · intro _
        exact ⟨initBound fields args kwargs, rfl⟩
  · have hD : initDoc fields args kwargs = Except.error E := by
      unfold initDoc
      rw [hEerrs]
      cases hcc : E with
      | nil => exact absurd hcc hEnil
      | cons a t => rfl
    have hviol := hEiff.mp hEnil
    refine ⟨?_, ?_, ?_, ?_⟩
    · intro e
      rw [hD]
      constructor
      · intro h
        cases h
        exact ⟨rfl, hEnil⟩
      · rintro ⟨rfl, _⟩
        rfl
    · exact ⟨fun _ => hviol, fun _ => ⟨E, hD⟩⟩
    · intro e he
      rw [hD] at he
      cases he
      rw [hE]
      simp only [List.length_append, List.length_map]
      by_cases h1 : args.length > fields.length <;> simp [h1]
    · constructor
      · rintro ⟨dd, hdd⟩
        rw [hD] at hdd
        cases hdd
      · intro hno
        exact absurd hviol hno

/-- Witness for C3, the spec's own example: four positional arguments for
three fields together with a keyword for a field already given
positionally yields an aggregate error with exactly two entries. -/
theorem c3_constructor_errors_witness :
    ∃ e, initDoc [exOne, exTwo, exThree]
        [some (strL "one"), some (strL "two"), some (strL "three"),
         some (strL "four")]
        [(strL "two", some (strL "foo"))] = Except.error e ∧ e.length = 2 := by
  obtain ⟨h1, h2, h3, h4⟩ := c3_constructor_errors [exOne, exTwo, exThree]
    [some (strL "one"), some (strL "two"), some (strL "three"),
     some (strL "four")]
    [(strL "two", some (strL "foo"))] (by decide) (by decide)
  obtain ⟨e, he⟩ := h2.mpr (Or.inl (by decide))
  exact ⟨e, he, by rw [h3 e he]; decide⟩

/-!
Claim C4 — validation runs every validator and aggregates all failures.
-/

/-- C4: `validate` runs every registered validator of every field against
the attribute-read value, collecting one failure entry per failing
validator, in field declaration order and registration order within a
field, never stopping early; it fails with exactly that list when it is
non-empty and succeeds with no effect otherwise.  A required field's
not-null validator is registered first, before any decorator-added
validator. -/
theorem c4_validate :
    (∀ (fields : List Field) (d : Dict),
       (validateDoc fields d = Except.ok () ↔
          (fields.map (fun f => f.validate (attrGet f d))).flatten = []) ∧
       (∀ e, validateDoc fields d = Except.error e ↔
          (e = (fields.map (fun f => f.validate (attrGet f d))).flatten ∧
           (fields.map (fun f => f.validate (attrGet f d))).flatten ≠ [])) ∧
       ((fields.map (fun f => f.validate (attrGet f d))).flatten = [] ↔
          ∀ f ∈ fields, ∀ fn ∈ f.validators, fn (attrGet f d) = none)) ∧
    (∀ (f : Field) (v : Value),
       f.validate v =
         f.validators.filterMap
           (fun fn => (fn v).map (fun m => VErr.mk f.name m))) ∧
    (∀ (c : Nat) (iv : Value) (fns : List (Value → Option Str)),
       (fns.foldl Field.addValidator (mkField c iv true).1).validators =
         requiredValidator :: fns) := by
  have hfold : ∀ (fns : List (Value → Option Str)) (f0 : Field),
      (fns.foldl Field.addValidator f0).validators = f0.validators ++ fns := by
    intro fns
    induction fns with
    | nil => intro f0; simp
    | cons fn rest ih =>
      intro f0
      simp [List.foldl_cons, ih, Field.addValidator, List.append_assoc]
  refine ⟨fun fields d => ⟨?_, ?_, ?_⟩, fun f v => rfl, fun c iv fns => ?_⟩
  · unfold validateDoc
    cases h : (fields.map (fun f => f.validate (attrGet f d))).flatten <;> simp [h]
  · intro e
    unfold validateDoc
    cases h : (fields.map (fun f => f.validate (attrGet f d))).flatten with
    | nil => simp [h]
    | cons a t =>
      constructor
      · intro he
        refine ⟨?_, by simp⟩
        simpa [h] using he.symm
      · intro he
        simp only [h] at he
        simp [he.1]
  · rw [List.flatten_eq_nil_iff]
    constructor
    · intro hall f hf fn hfn
      have h1 : f.validate (attrGet f d) = [] :=
        hall _ (List.mem_map_of_mem _ hf)
      unfold Field.validate at h1
      rw [List.filterMap_eq_nil_iff] at h1
      have := h1 fn hfn
      cases h2 : fn (attrGet f d) with
      | none => rfl
      | some m => simp [h2] at this
    · intro hall l hl
      obtain ⟨f, hf, rfl⟩ := List.mem_map.mp hl
      unfold Field.validate
      rw [List.filterMap_eq_nil_iff]
      intro fn hfn
      simp [hall f hf fn hfn]
  · rw [hfold]
    rfl

/-!
Claim C6 — unfolding folded header values.
-/

theorem unfoldM_append_noNl (l r : Str) (h : '\n' ∉ l) :
    unfoldM false (l ++ r) = (unfoldM false r).map (fun t => l ++ t) := by
  induction l with
  | nil =>
    cases h2 : unfoldM false r <;> simp [h2]
  | cons c cs ih =>
    have hc : ¬c = '\n' := by
      intro hh
      exact h (by simp [hh])
    have hcs : '\n' ∉ cs := fun hh => h (by simp [hh])
    simp only [List.cons_append]
    rw [show unfoldM false (c :: (cs ++ r)) =
      (unfoldM false (cs ++ r)).map (fun t => c :: t) from by
        simp [unfoldM, hc]]
    rw [ih hcs]
    cases h2 : unfoldM false r <;> simp [h2]

theorem unfold_noNl (l : Str) (h : '\n' ∉ l) : unfoldM false l = some l := by
  have h2 := unfoldM_append_noNl l [] h
  simpa [unfoldM] using h2

theorem unfoldM_true_skip (p r : Str)
    (h : ∀ c ∈ p, c = ' ' ∨ c = '\t' ∨ c = '\n') :
    unfoldM true (p ++ r) = unfoldM true r := by
  induction p with
  | nil => rfl
  | cons c cs ih =>
    have hc : (c = ' ' || c = '\t' || c = '\n') = true := by
      rcases h c (by simp) with h1 | h1 | h1 <;> simp [h1]
    simp only [List.cons_append, unfoldM, if_pos hc]
    exact ih (fun d hd => h d (by simp [hd]))

theorem unfold_rejoin (conts : List (Str × Str)) :
    ∀ l0 : Str, '\n' ∉ l0 →
    (∀ pc ∈ conts,
       (∀ c ∈ pc.1, c = ' ' ∨ c = '\t') ∧
       pc.2 ≠ [] ∧
       (∀ c ∈ pc.2.take 1, ¬(c = ' ' ∨ c = '\t' ∨ c = '\n')) ∧
       '\n' ∉ pc.2) →
    unfoldM false
        (l0 ++ (conts.map (fun pc => '\n' :: (pc.1 ++ pc.2))).flatten) =
      some (l0 ++ (conts.map (fun pc => ' ' :: pc.2)).flatten) := by
  induction conts with
  | nil =>
    intro l0 h0 _
    simpa using unfold_noNl l0 h0
  | cons pc rest ih =>
    intro l0 h0 hc
    obtain ⟨p1, p2⟩ := pc
    obtain ⟨hpad, hne, hhd, hnl⟩ := hc (p1, p2) (by simp)
    simp only at hpad hne hhd hnl
    obtain ⟨hd, tl, rfl⟩ : ∃ hd tl, p2 = hd :: tl := by
      cases hcc : p2 with
      | nil => exact absurd hcc hne
      | cons a b => exact ⟨a, b, rfl⟩
    have hhd2 : ¬(hd = ' ' ∨ hd = '\t' ∨ hd = '\n') := by
      have := hhd hd
      simp at this
      intro hcon
      rcases hcon with h1 | h1 | h1 <;> simp [h1] at this
    have htl : '\n' ∉ tl := fun hh => hnl (by simp [hh])
    simp only [List.map_cons, List.flatten_cons]
    rw [show l0 ++ (('\n' :: (p1 ++ hd :: tl)) ++
        ((rest.map (fun pc => '\n' :: (pc.1 ++ pc.2))).flatten)) =
      l0 ++ '\n' :: (p1 ++ (hd :: (tl ++
        (rest.map (fun pc => '\n' :: (pc.1 ++ pc.2))).flatten))) by
      simp [List.append_assoc]]
    rw [unfoldM_append_noNl _ _ h0]
    have hstep : unfoldM false ('\n' :: (p1 ++ (hd :: (tl ++
        (rest.map (fun pc => '\n' :: (pc.1 ++ pc.2))).flatten)))) =
        unfoldM true (p1 ++ (hd :: (tl ++
          (rest.map (fun pc => '\n' :: (pc.1 ++ pc.2))).flatten))) := by
      simp [unfoldM]
    rw [hstep, unfoldM_true_skip _ _
      (fun c hcmem => by
        rcases hpad c hcmem with h1 | h1
        · exact Or.inl h1
        · exact Or.inr (Or.inl h1))]
    have hhd3 : ¬(hd = ' ' || hd = '\t' || hd = '\n') = true := by
      intro hcon
      apply hhd2
      rcases Bool.or_eq_true_iff.mp hcon with hcon2 | h1
      · rcases Bool.or_eq_true_iff.mp hcon2 with h1 | h1
        · exact Or.inl (by simpa using h1)
        · exact Or.inr (Or.inl (by simpa using h1))
      · exact Or.inr (Or.inr (by simpa using h1))
    simp only [unfoldM, if_neg hhd3]
    rw [ih tl htl (fun qc hqc => hc qc (by simp [hqc]))]
    simp [List.append_assoc]

/-- C6: a folded header value — a first line followed by continuation
lines each made of non-empty leading whitespace and non-empty content —
unfolds by replacing each newline-plus-leading-whitespace run with a
single space: the result is the physical lines joined by single spaces
with the line breaks and continuation indentation removed. -/
theorem c6_unfold_folded (l0 : Str) (conts : List (Str × Str))
    (h0 : '\n' ∉ l0)
    (hc : ∀ pc ∈ conts,
       (∀ c ∈ pc.1, c = ' ' ∨ c = '\t') ∧ pc.1 ≠ [] ∧ pc.2 ≠ [] ∧
       (∀ c ∈ pc.2.take 1, ¬(c = ' ' ∨ c = '\t' ∨ c = '\n')) ∧
       '\n' ∉ pc.2) :
    unfold (l0 ++ (conts.map (fun pc => '\n' :: (pc.1 ++ pc.2))).flatten) =
      some (l0 ++ (conts.map (fun pc => ' ' :: pc.2)).flatten) :=
  unfold_rejoin conts l0 h0
    (fun pc hpc =>
      ⟨(hc pc hpc).1, (hc pc hpc).2.2.1, (hc pc hpc).2.2.2.1,
       (hc pc hpc).2.2.2.2⟩)

/-- Witness for C6, the spec's example: the folded value whose physical
lines are `line one`, `    line two`, `    line three` unfolds to
`line one line two line three`. -/
theorem c6_unfold_folded_witness :
    unfold (strL "line one\n    line two\n    line three") =
      some (strL "line one line two line three") := by
  have h := c6_unfold_folded (strL "line one")
    [(strL "    ", strL "line two"), (strL "    ", strL "line three")]
    (by decide) (by decide)
  rw [show strL "line one\n    line two\n    line three" =
      strL "line one" ++
        (([(strL "    ", strL "line two"),
           (strL "    ", strL "line three")].map
          (fun pc => '\n' :: (pc.1 ++ pc.2))).flatten) from by decide,
    show strL "line one line two line three" =
      strL "line one" ++
        (([(strL "    ", strL "line two"),
           (strL "    ", strL "line three")].map
          (fun pc => ' ' :: pc.2)).flatten) from by decide]
  exact h

/-!
Claim C7 and Claim C1 counterexamples.
-/

/-- Counterexample to C7 as stated: with the 80-character word, the
wrapper (whose `break_long_words` option is on by default) splits the word
mid-way at the 72-column boundary, and unfolding the wrapped text inserts
a space inside the word, so wrap-then-unfold does not reproduce the
original header line. -/
theorem c7_wrap_roundtrip_counterexample :
    unfold (fill (headerLine (strL "f") longWord)) ≠
      some (headerLine (strL "f") longWord) := by decide

/-- Counterexample to C1 as stated: a document whose only field holds the
explicitly-set value `"x "` (trailing space) and whose body is `"b\n"`
saves and reopens to a document whose field value is `"x"` — the wrapper
drops the trailing whitespace — so open-after-save does not restore the
field values of every document with explicitly-set fields and a body. -/
theorem c1_roundtrip_counterexample :
    openDoc [exF]
        (saveContent [exF] [(strL "f", some (strL "x "))] (strL "b\n")) =
      Except.ok [(strL "f", some (strL "x"))] ∧
    dictGet [(strL "f", some (strL "x"))] (strL "f") ≠
      dictGet [(strL "f", some (strL "x "))] (strL "f") := by
  constructor
  · decide
  · decide

/-!
Wrapping machinery, part 1: whitespace munging and chunk splitting on the
header lines save produces.
-/

theorem takeWhile_all_append (p : Char → Bool) (a b : Str)
    (h : ∀ c ∈ a, p c = true) :
    (a ++ b).takeWhile p = a ++ b.takeWhile p := by
  induction a with
  | nil => rfl
  | cons c cs ih =>
    simp only [List.cons_append, List.takeWhile_cons, h c (by simp)]
    simp [ih (fun d hd => h d (by simp [hd]))]

theorem dropWhile_all_append (p : Char → Bool) (a b : Str)
    (h : ∀ c ∈ a, p c = true) :
    (a ++ b).dropWhile p = b.dropWhile p := by
  induction a with
  | nil => rfl
  | cons c cs ih =>
    simp only [List.cons_append, List.dropWhile_cons, h c (by simp)]
    simp [ih (fun d hd => h d (by simp [hd]))]

theorem length_dropWhile_le (p : Char → Bool) (l : List Char) :
    (l.dropWhile p).length ≤ l.length := by
  induction l with
  | nil => simp [List.dropWhile]
  | cons a t ih =>
    simp only [List.dropWhile_cons]
    split
    · exact Nat.le_trans ih (Nat.le_succ _)
    · exact Nat.le_refl _

theorem chunksOfF_nil (fuel : Nat) : chunksOfF fuel [] = [] := by
  cases fuel <;> rfl

theorem chunksOfF_congr :
    ∀ (fuel1 fuel2 : Nat) (s : Str), s.length ≤ fuel1 → s.length ≤ fuel2 →
    chunksOfF fuel1 s = chunksOfF fuel2 s := by
  intro fuel1
  induction fuel1 with
  | zero =>
    intro fuel2 s h1 _
    rw [List.length_eq_zero.mp (Nat.le_zero.mp h1)]
    rw [chunksOfF_nil, chunksOfF_nil]
  | succ f1 ih =>
    intro fuel2 s h1 h2
    cases s with
    | nil => rw [chunksOfF_nil, chunksOfF_nil]
    | cons c cs =>
      cases fuel2 with
      | zero => simp at h2
      | succ f2 =>
        simp only [chunksOfF, List.cons.injEq]
        refine ⟨trivial, ih f2 _ ?_ ?_⟩
        · exact Nat.le_trans (length_dropWhile_le _ _) (by simpa using h1)
        · exact Nat.le_trans (length_dropWhile_le _ _) (by simpa using h2)

theorem chunksOf_word_front (w rest : Str) (hw : w ≠ [])
    (hwc : ∀ c ∈ w, isPySpace c = false)
    (hr : rest = [] ∨ ∃ t, rest = ' ' :: t) :
    chunksOf (w ++ rest) = w :: chunksOf rest := by
  obtain ⟨c, w2, rfl⟩ : ∃ c w2, w = c :: w2 := by
    cases hcc : w with
    | nil => exact absurd hcc hw
    | cons a b => exact ⟨a, b, rfl⟩
  have hc : isPySpace c = false := hwc c (by simp)
  have hsp : isPySpace ' ' = true := by decide
  have htw : (w2 ++ rest).takeWhile (fun d => isPySpace d == isPySpace c) =
      w2 := by
    rw [takeWhile_all_append _ _ _
      (fun d hd => by simp [hwc d (by simp [hd]), hc])]
    rcases hr with rfl | ⟨t, rfl⟩
    · simp
    · simp [List.takeWhile_cons, hc, hsp]
  have hdw : (w2 ++ rest).dropWhile (fun d => isPySpace d == isPySpace c) =
      rest := by
    rw [dropWhile_all_append _ _ _
      (fun d hd => by simp [hwc d (by simp [hd]), hc])]
    rcases hr with rfl | ⟨t, rfl⟩
    · simp
    · simp [List.dropWhile_cons, hc, hsp]
  show chunksOfF ((c :: w2 ++ rest).length) (c :: (w2 ++ rest)) = _
  simp only [chunksOfF, htw, hdw]
  refine congrArg _ ?_
  exact chunksOfF_congr _ _ rest (by simp) (Nat.le_refl _)

theorem chunksOf_space_front (rest : Str)
    (hr : rest = [] ∨ ∃ c t, rest = c :: t ∧ isPySpace c = false) :
    chunksOf (' ' :: rest) = [' '] :: chunksOf rest := by
  have hsp : isPySpace ' ' = true := by decide
  have htw : rest.takeWhile (fun d => isPySpace d == isPySpace ' ') = [] := by
    rcases hr with rfl | ⟨c, t, rfl, hc⟩
    · rfl
    · simp [List.takeWhile_cons, hc, hsp]
  have hdw : rest.dropWhile (fun d => isPySpace d == isPySpace ' ') = rest := by
    rcases hr with rfl | ⟨c, t, rfl, hc⟩
    · rfl
    · simp [List.dropWhile_cons, hc, hsp]
  show chunksOfF ((' ' :: rest).length) (' ' :: rest) = _
  simp only [chunksOfF, htw, hdw]
  refine congrArg _ ?_
  exact chunksOfF_congr _ _ rest (Nat.le_refl _) (Nat.le_refl _)

theorem joinWords_head (ws : List Str) (hne : ws ≠ [])
    (h : ∀ w ∈ ws, w ≠ [] ∧ ∀ c ∈ w, isPySpace c = false) :
    ∃ c t, joinWords ws = c :: t ∧ isPySpace c = false := by
  obtain ⟨w, t, rfl⟩ : ∃ w t, ws = w :: t := by
    cases hcc : ws with
    | nil => exact absurd hcc hne
    | cons a b => exact ⟨a, b, rfl⟩
  obtain ⟨hwne, hwc⟩ := h w (by simp)
  obtain ⟨c, w2, rfl⟩ : ∃ c w2, w = c :: w2 := by
    cases hcc : w with
    | nil => exact absurd hcc hwne
    | cons a b => exact ⟨a, b, rfl⟩
  cases t with
  | nil => exact ⟨c, w2, rfl, hwc c (by simp)⟩
  | cons w2h t2 =>
    exact ⟨c, w2 ++ ' ' :: joinWords (w2h :: t2), rfl, hwc c (by simp)⟩

theorem chunksOf_joinWords (ws : List Str)
    (h : ∀ w ∈ ws, w ≠ [] ∧ ∀ c ∈ w, isPySpace c = false) :
    chunksOf (joinWords ws) = sepWords ws := by
  induction ws with
  | nil => rfl
  | cons w t ih =>
    obtain ⟨hwne, hwc⟩ := h w (by simp)
    cases t with
    | nil =>
      have h2 := chunksOf_word_front w [] hwne hwc (Or.inl rfl)
      rw [List.append_nil] at h2
      show chunksOf w = sepWords [w]
      rw [h2]
      rfl
    | cons w2 t2 =>
      have hjoin : joinWords (w :: w2 :: t2) = w ++ ' ' :: joinWords (w2 :: t2) :=
        rfl
      rw [hjoin, chunksOf_word_front w _ hwne hwc (Or.inr ⟨_, rfl⟩)]
      obtain ⟨c, ct, hct, hcsp⟩ := joinWords_head (w2 :: t2) (by simp)
        (fun q hq => h q (by simp [hq]))
      rw [chunksOf_space_front _ (Or.inr ⟨c, ct, hct, hcsp⟩)]
      rw [ih (fun q hq => h q (by simp [hq]))]
      rfl

theorem goodWord_nonspace (w : Str) (h : goodWord w) :
    w ≠ [] ∧ ∀ c ∈ w, isPySpace c = false := by
  refine ⟨h.1, fun c hc => ?_⟩
  have h2 := h.2.2 c hc
  unfold wordChar at h2
  simp at h2
  exact h2.1

theorem nameColon_nonspace (n : Str) (hn : goodName n) :
    (n ++ [':']) ≠ [] ∧ ∀ c ∈ n ++ [':'], isPySpace c = false := by
  refine ⟨by simp, fun c hc => ?_⟩
  rcases List.mem_append.mp hc with h1 | h1
  · have h2 := (hn.2.1 c h1).1
    unfold wordChar at h2
    simp at h2
    exact h2.1
  · rw [List.mem_singleton.mp h1]
    decide

theorem chunksOf_headerLine (n : Str) (ws : List Str) (hn : goodName n)
    (hws : ∀ w ∈ ws, goodWord w) (hne : ws ≠ []) :
    chunksOf (headerLine n (joinWords ws)) =
      (n ++ [':']) :: [' '] :: sepWords ws := by
  have hnc := nameColon_nonspace n hn
  have hline : headerLine n (joinWords ws) =
      (n ++ [':']) ++ ' ' :: joinWords ws := by
    unfold headerLine
    simp
  rw [hline, chunksOf_word_front _ _ hnc.1 hnc.2 (Or.inr ⟨_, rfl⟩)]
  obtain ⟨c, ct, hct, hcsp⟩ := joinWords_head ws hne
    (fun q hq => goodWord_nonspace q (hws q hq))
  rw [chunksOf_space_front _ (Or.inr ⟨c, ct, hct, hcsp⟩)]
  rw [chunksOf_joinWords ws (fun q hq => goodWord_nonspace q (hws q hq))]

theorem chunksOf_headerLine_empty (n : Str) (hn : goodName n) :
    chunksOf (headerLine n []) = [n ++ [':'], [' ']] := by
  have hnc := nameColon_nonspace n hn
  have hline : headerLine n ([] : Str) = (n ++ [':']) ++ ' ' :: [] := by
    unfold headerLine
    simp
  rw [hline, chunksOf_word_front _ _ hnc.1 hnc.2 (Or.inr ⟨_, rfl⟩)]
  rw [chunksOf_space_front _ (Or.inl rfl)]
  rfl

theorem expandtabsAux_noTab (s : Str) (h : ∀ c ∈ s, ¬c = '\t') :
    ∀ col, expandtabsAux s col = s := by
  induction s with
  | nil => intro col; rfl
  | cons c cs ih =>
    intro col
    have hc : ¬c = '\t' := h c (by simp)
    simp only [expandtabsAux, if_neg hc]
    split
    · exact congrArg _ (ih (fun d hd => h d (by simp [hd])) 0)
    · exact congrArg _ (ih (fun d hd => h d (by simp [hd])) (col + 1))

theorem mungeWhitespace_id (s : Str)
    (h : ∀ c ∈ s, isPySpace c = false ∨ c = ' ') :
    mungeWhitespace s = s := by
  unfold mungeWhitespace
  rw [expandtabsAux_noTab s (fun c hc => by
    rcases h c hc with h1 | h1
    · intro hh
      rw [hh] at h1
      simp [isPySpace] at h1
    · intro hh
      rw [hh] at h1
      cases h1) 0]
  have : ∀ c ∈ s,
      (if c = '\t' || c = '\n' || c = '\x0b' || c = '\x0c' || c = '\r' then ' '
       else c) = c := by
    intro c hc
    rcases h c hc with h1 | h1
    · simp only [isPySpace] at h1
      simp only [Bool.or_eq_false_iff, decide_eq_false_iff_not] at h1
      have : (c = '\t' || c = '\n' || c = '\x0b' || c = '\x0c' || c = '\r') =
          false := by
        simp only [Bool.or_eq_false_iff, decide_eq_false_iff_not]
        tauto
      simp [this]
    · rw [h1]
      decide
  calc (s.map fun c =>
        if c = '\t' || c = '\n' || c = '\x0b' || c = '\x0c' || c = '\r' then ' '
        else c) = s.map id := List.map_congr_left (fun c hc => this c hc)
    _ = s := List.map_id s


/-!
Wrapping machinery, part 2: the greedy inner loop on word/space chunk
lists.
-/

theorem sepWords_cons (w : Str) (l : List Str) (h : l ≠ []) :
    sepWords (w :: l) = w :: [' '] :: sepWords l := by
  cases l with
  | nil => exact absurd rfl h
  | cons a t => rfl

theorem takeFits_sepWords (width : Nat) :
    ∀ (ws : List Str) (cur : Nat),
    (∀ w ∈ ws, w ≠ [] ∧ w.length ≤ width) →
    (takeFits width cur (sepWords ws) = (sepWords ws, [])) ∨
    (∃ k, 0 < k ∧ k < ws.length ∧
      takeFits width cur (sepWords ws) =
        (sepWords (ws.take k), [' '] :: sepWords (ws.drop k))) ∨
    (∃ k, 0 < k ∧ k < ws.length ∧
      takeFits width cur (sepWords ws) =
        (sepWords (ws.take k) ++ [[' ']], sepWords (ws.drop k))) ∨
    (∃ w0 t, ws = w0 :: t ∧ width < cur + w0.length ∧
      takeFits width cur (sepWords ws) = ([], sepWords ws)) := by
  intro ws
  induction ws with
  | nil =>
    intro cur _
    exact Or.inl rfl
  | cons w t ih =>
    intro cur hws
    cases t with
    | nil =>
      by_cases hw : cur + w.length ≤ width
      · refine Or.inl ?_
        show takeFits width cur [w] = ([w], [])
        simp [takeFits, hw]
      · refine Or.inr (Or.inr (Or.inr ⟨w, [], rfl, Nat.lt_of_not_le hw, ?_⟩))
        show takeFits width cur [w] = ([], [w])
        simp [takeFits, hw]
    | cons w2 t2 =>
      have hseptail : (w2 :: t2 : List Str) ≠ [] := by simp
      have hsep : sepWords (w :: w2 :: t2) = w :: [' '] :: sepWords (w2 :: t2) :=
        rfl
      by_cases hw : cur + w.length ≤ width
      · by_cases hsp : cur + w.length + 1 ≤ width
        · have hunf : takeFits width cur (sepWords (w :: w2 :: t2)) =
              (w :: [' '] ::
                (takeFits width (cur + w.length + 1) (sepWords (w2 :: t2))).1,
               (takeFits width (cur + w.length + 1) (sepWords (w2 :: t2))).2) := by
            rw [hsep]
            simp only [takeFits, if_pos hw, List.length_singleton]
            simp [takeFits, hsp]
          rcases ih (cur + w.length + 1)
            (fun q hq => hws q (by simp [hq])) with h1 | h2 | h3 | h4
          · refine Or.inl ?_
            rw [hunf, h1, hsep]
          · obtain ⟨k, hk0, hkl, heq⟩ := h2
            refine Or.inr (Or.inl ⟨k + 1, Nat.succ_pos k, by simpa using hkl, ?_⟩)
            rw [hunf, heq]
            have htk : (w2 :: t2).take k ≠ [] := by
              rw [Ne, List.take_eq_nil_iff]
              simp [Nat.pos_iff_ne_zero.mp hk0]
            rw [List.take_succ_cons, List.drop_succ_cons,
              sepWords_cons w _ htk]
          · obtain ⟨k, hk0, hkl, heq⟩ := h3
            refine Or.inr (Or.inr (Or.inl
              ⟨k + 1, Nat.succ_pos k, by simpa using hkl, ?_⟩))
            rw [hunf, heq]
            have htk : (w2 :: t2).take k ≠ [] := by
              rw [Ne, List.take_eq_nil_iff]
              simp [Nat.pos_iff_ne_zero.mp hk0]
            rw [List.take_succ_cons, List.drop_succ_cons,
              sepWords_cons w _ htk]
            rfl
          · obtain ⟨w0, t0, heqt, hlt, heq⟩ := h4
            refine Or.inr (Or.inr (Or.inl ⟨1, Nat.one_pos, by simp, ?_⟩))
            rw [hunf, heq]
            rfl
        · have hunf : takeFits width cur (sepWords (w :: w2 :: t2)) =
              ([w], [' '] :: sepWords (w2 :: t2)) := by
            rw [hsep]
            simp only [takeFits, if_pos hw, List.length_singleton]
            simp [takeFits, hsp]
          refine Or.inr (Or.inl ⟨1, Nat.one_pos, by simp, ?_⟩)
          rw [hunf]
          rfl
      · refine Or.inr (Or.inr (Or.inr
          ⟨w, w2 :: t2, rfl, Nat.lt_of_not_le hw, ?_⟩))
        rw [hsep]
        simp [takeFits, hw]

/-!
Wrapping machinery, part 3: one outer iteration of the wrapper on a
word/space chunk list.
-/

theorem flatten_sepWords (ws : List Str) :
    (sepWords ws).flatten = joinWords ws := by
  induction ws with
  | nil => rfl
  | cons w t ih =>
    cases t with
    | nil => simp [sepWords, joinWords]
    | cons w2 t2 =>
      rw [sepWords_cons w _ (by simp)]
      simp only [List.flatten_cons, ih]
      rfl

theorem sepWords_ne_nil (ws : List Str) (h : ws ≠ []) : sepWords ws ≠ [] := by
  cases ws with
  | nil => exact absurd rfl h
  | cons w t => cases t <;> simp [sepWords]

theorem getLast?_cons_ne {α : Type} (a : α) (l : List α) (h : l ≠ []) :
    (a :: l).getLast? = l.getLast? := by
  rw [show a :: l = [a] ++ l from rfl, List.getLast?_append]
  cases hcc : l.getLast? with
  | none =>
    exact absurd (List.getLast?_eq_none_iff.mp hcc) h
  | some x => rfl

theorem isWsChunk_goodWord (w : Str) (h : goodWord w) : isWsChunk w = false := by
  obtain ⟨hne, hsp⟩ := goodWord_nonspace w h
  obtain ⟨c, t, rfl⟩ : ∃ c t, w = c :: t := by
    cases hcc : w with
    | nil => exact absurd hcc hne
    | cons a b => exact ⟨a, b, rfl⟩
  simp [isWsChunk, hsp c (by simp)]

theorem sepWords_getLast (ws : List Str) (hne : ws ≠ [])
    (hws : ∀ w ∈ ws, goodWord w) :
    ∃ lw, (sepWords ws).getLast? = some lw ∧ isWsChunk lw = false := by
  induction ws with
  | nil => exact absurd rfl hne
  | cons w t ih =>
    cases t with
    | nil =>
      exact ⟨w, rfl, isWsChunk_goodWord w (hws w (by simp))⟩
    | cons w2 t2 =>
      obtain ⟨lw, hlw, hlwc⟩ := ih (by simp) (fun q hq => hws q (by simp [hq]))
      refine ⟨lw, ?_, hlwc⟩
      rw [sepWords_cons w _ (by simp)]
      rw [getLast?_cons_ne w ([' '] :: sepWords (w2 :: t2)) (by simp)]
      rw [getLast?_cons_ne [' '] (sepWords (w2 :: t2))
        (sepWords_ne_nil _ (by simp))]
      exact hlw

theorem sepWords_head_word (ws : List Str) (hne : ws ≠ []) :
    ∃ w0 rest, ws = w0 :: rest ∧
      ((rest = [] ∧ sepWords ws = [w0]) ∨
       (rest ≠ [] ∧ sepWords ws = w0 :: [' '] :: sepWords rest)) := by
  cases ws with
  | nil => exact absurd rfl hne
  | cons w t =>
    cases t with
    | nil => exact ⟨w, [], rfl, Or.inl ⟨rfl, rfl⟩⟩
    | cons w2 t2 => exact ⟨w, w2 :: t2, rfl, Or.inr ⟨by simp, rfl⟩⟩

theorem wrapStep_cont (ws : List Str) (hne : ws ≠ [])
    (hws : ∀ w ∈ ws, goodWord w) (entry : List Str)
    (hentry : entry = sepWords ws ∨ entry = [' '] :: sepWords ws) :
    ∃ k, 0 < k ∧ k ≤ ws.length ∧
      (wrapStep false entry).1 = some (indent4 ++ joinWords (ws.take k)) ∧
      ((k = ws.length ∧ (wrapStep false entry).2 = []) ∨
       (k < ws.length ∧
         ((wrapStep false entry).2 = sepWords (ws.drop k) ∨
          (wrapStep false entry).2 = [' '] :: sepWords (ws.drop k)))) := by
  have hwidth : 72 - (strL "    ").length = 68 := by decide
  have hws68 : ∀ w ∈ ws, w ≠ [] ∧ w.length ≤ 68 :=
    fun w hw => ⟨(hws w hw).1, (hws w hw).2.1⟩
  have hE : dropLeadingWs false entry = sepWords ws := by
    rcases hentry with rfl | rfl
    · obtain ⟨w0, rest, rfl, hsh⟩ := sepWords_head_word ws hne
      have hw0 : isWsChunk w0 = false :=
        isWsChunk_goodWord w0 (hws w0 (by simp))
      rcases hsh with ⟨_, hs⟩ | ⟨_, hs⟩ <;> rw [hs] <;>
        simp [dropLeadingWs, hw0]
    · simp [dropLeadingWs, isWsChunk, isPySpace]
  rcases takeFits_sepWords 68 ws 0 hws68 with h1 | h2 | h3 | h4
  · -- every chunk fits: one line holding all the words, nothing remains
    obtain ⟨lw, hlast, hlastw⟩ := sepWords_getLast ws hne hws
    have hstep : wrapStep false entry =
        (some (strL "    " ++ (sepWords ws).flatten), []) := by
      unfold wrapStep
      simp only [Bool.false_eq_true, if_false, hwidth, hE, h1, hlast,
        hlastw, if_neg (sepWords_ne_nil ws hne)]
    refine ⟨ws.length, ?_, Nat.le_refl _, ?_, Or.inl ⟨rfl, ?_⟩⟩
    · cases ws with
      | nil => exact absurd rfl hne
      | cons a b => simp
    · rw [hstep]
      simp [flatten_sepWords, indent4]
    · rw [hstep]
  · -- the break came at a space chunk that stayed in the remainder
    obtain ⟨k, hk0, hkl, heq⟩ := h2
    have htk : ws.take k ≠ [] := by
      rw [Ne, List.take_eq_nil_iff]
      cases ws with
      | nil => exact absurd rfl hne
      | cons a b => simp [Nat.pos_iff_ne_zero.mp hk0]
    obtain ⟨lw, hlast, hlastw⟩ := sepWords_getLast (ws.take k) htk
      (fun q hq => hws q (List.mem_of_mem_take hq))
    have hstep : wrapStep false entry =
        (some (strL "    " ++ (sepWords (ws.take k)).flatten),
         [' '] :: sepWords (ws.drop k)) := by
      unfold wrapStep
      simp only [Bool.false_eq_true, if_false, hwidth, hE, heq,
        List.length_singleton]
      rw [if_neg (by decide : ¬((1 : Nat) > 68))]
      simp only [hlast, hlastw, Bool.false_eq_true, if_false,
        if_neg (sepWords_ne_nil _ htk)]
    refine ⟨k, hk0, Nat.le_of_lt hkl, ?_, Or.inr ⟨hkl, Or.inr ?_⟩⟩
    · rw [hstep]
      simp [flatten_sepWords, indent4]
    · rw [hstep]
  · -- the break came at a word: the trailing space chunk is dropped
    obtain ⟨k, hk0, hkl, heq⟩ := h3
    have htk : ws.take k ≠ [] := by
      rw [Ne, List.take_eq_nil_iff]
      cases ws with
      | nil => exact absurd rfl hne
      | cons a b => simp [Nat.pos_iff_ne_zero.mp hk0]
    have hdk : ws.drop k ≠ [] := by
      rw [Ne, List.drop_eq_nil_iff]
      exact Nat.not_le.mpr hkl
    obtain ⟨w0, rest, hdrop, hsh⟩ := sepWords_head_word (ws.drop k) hdk
    have hw0len : w0.length ≤ 68 := by
      have hmem : w0 ∈ ws := by
        have hmem2 : w0 ∈ ws.drop k := by rw [hdrop]; simp
        exact List.mem_of_mem_drop hmem2
      exact (hws w0 hmem).2.1
    have hsepdrop : ∃ tl, sepWords (ws.drop k) = w0 :: tl := by
      rcases hsh with ⟨_, hs⟩ | ⟨_, hs⟩
      · exact ⟨[], hs⟩
      · exact ⟨[' '] :: sepWords rest, hs⟩
    obtain ⟨tl, hsd⟩ := hsepdrop
    have hstep : wrapStep false entry =
        (some (strL "    " ++ (sepWords (ws.take k)).flatten),
         sepWords (ws.drop k)) := by
      unfold wrapStep
      simp only [Bool.false_eq_true, if_false, hwidth, hE, heq, hsd]
      rw [if_neg (by omega : ¬(w0.length > 68))]
      simp only [← hsd, List.getLast?_concat,
        if_pos (by decide : isWsChunk [' '] = true), List.dropLast_concat,
        if_neg htk]
      rw [if_neg (sepWords_ne_nil _ htk)]
    refine ⟨k, hk0, Nat.le_of_lt hkl, ?_, Or.inr ⟨hkl, Or.inl ?_⟩⟩
    · rw [hstep]
      simp [flatten_sepWords, indent4]
    · rw [hstep]
  · -- impossible: the first word always fits an empty line
    obtain ⟨w0, t, rfl, hlt, _⟩ := h4
    have := (hws w0 (by simp)).2.1
    omega

theorem wrapStep_first (n : Str) (ws : List Str) (hn : goodName n)
    (hws : ∀ w ∈ ws, goodWord w) (hne : ws ≠ [])
    (hfit : n.length + 2 + (ws.headD []).length ≤ 72) :
    ∃ k, 0 < k ∧ k ≤ ws.length ∧
      (wrapStep true ((n ++ [':']) :: [' '] :: sepWords ws)).1 =
        some (headerLine n (joinWords (ws.take k))) ∧
      ((k = ws.length ∧
          (wrapStep true ((n ++ [':']) :: [' '] :: sepWords ws)).2 = []) ∨
       (k < ws.length ∧
         ((wrapStep true ((n ++ [':']) :: [' '] :: sepWords ws)).2 =
            sepWords (ws.drop k) ∨
          (wrapStep true ((n ++ [':']) :: [' '] :: sepWords ws)).2 =
            [' '] :: sepWords (ws.drop k)))) := by
  have hws72 : ∀ w ∈ ws, w ≠ [] ∧ w.length ≤ 72 :=
    fun w hw => ⟨(hws w hw).1, Nat.le_trans (hws w hw).2.1 (by omega)⟩
  have hn72 : n.length + 2 ≤ 72 := hn.2.2
  have hcond1 : 0 + (n ++ [':']).length ≤ 72 := by
    simp only [List.length_append, List.length_singleton]
    omega
  have hcond2 : 0 + (n ++ [':']).length + ([' '] : Str).length ≤ 72 := by
    simp only [List.length_append, List.length_singleton]
    omega
  have htf : takeFits 72 0 ((n ++ [':']) :: [' '] :: sepWords ws) =
      ((n ++ [':']) :: [' '] ::
        (takeFits 72 (0 + (n ++ [':']).length + ([' '] : Str).length)
          (sepWords ws)).1,
       (takeFits 72 (0 + (n ++ [':']).length + ([' '] : Str).length)
         (sepWords ws)).2) := by
    simp only [takeFits, if_pos hcond1, if_pos hcond2]
  have hcur : 0 + (n ++ [':']).length + ([' '] : Str).length =
      n.length + 2 := by
    simp only [List.length_append, List.length_singleton]
    omega
  rw [hcur] at htf
  have hflat : ∀ k2, headerLine n (joinWords (ws.take k2)) =
      [] ++ ((n ++ [':']) :: [' '] :: sepWords (ws.take k2)).flatten := by
    intro k2
    simp [headerLine, flatten_sepWords, List.append_assoc]
  rcases takeFits_sepWords 72 ws (n.length + 2) hws72 with h1 | h2 | h3 | h4
  · obtain ⟨lw, hlast, hlastw⟩ := sepWords_getLast ws hne hws
    have hlastfull : ((n ++ [':']) :: [' '] :: sepWords ws).getLast? =
        some lw := by
      rw [getLast?_cons_ne _ ([' '] :: sepWords ws) (by simp)]
      rw [getLast?_cons_ne [' '] (sepWords ws) (sepWords_ne_nil ws hne)]
      exact hlast
    have htr : takeFits 72 0 ((n ++ [':']) :: [' '] :: sepWords ws) =
        ((n ++ [':']) :: [' '] :: sepWords ws, []) := by
      rw [htf, h1]
    have hstep : wrapStep true ((n ++ [':']) :: [' '] :: sepWords ws) =
        (some ([] ++ ((n ++ [':']) :: [' '] :: sepWords ws).flatten), []) := by
      unfold wrapStep
      simp only [dropLeadingWs, Bool.not_true, Bool.false_and,
        Bool.false_eq_true, if_false, if_true, List.length_nil, Nat.sub_zero]
      rw [htr]
      simp [hlastfull, hlastw]
    refine ⟨ws.length, ?_, Nat.le_refl _, ?_, Or.inl ⟨rfl, ?_⟩⟩
    · cases ws with
      | nil => exact absurd rfl hne
      | cons a b => simp
    · rw [hstep, hflat ws.length, List.take_length]
    · rw [hstep]
  · obtain ⟨k, hk0, hkl, heq⟩ := h2
    have htk : ws.take k ≠ [] := by
      rw [Ne, List.take_eq_nil_iff]
      cases ws with
      | nil => exact absurd rfl hne
      | cons a b => simp [Nat.pos_iff_ne_zero.mp hk0]
    obtain ⟨lw, hlast, hlastw⟩ := sepWords_getLast (ws.take k) htk
      (fun q hq => hws q (List.mem_of_mem_take hq))
    have hlastfull : ((n ++ [':']) :: [' '] :: sepWords (ws.take k)).getLast? =
        some lw := by
      rw [getLast?_cons_ne _ ([' '] :: sepWords (ws.take k)) (by simp)]
      rw [getLast?_cons_ne [' '] (sepWords (ws.take k))
        (sepWords_ne_nil _ htk)]
      exact hlast
    have htr : takeFits 72 0 ((n ++ [':']) :: [' '] :: sepWords ws) =
        ((n ++ [':']) :: [' '] :: sepWords (ws.take k),
         [' '] :: sepWords (ws.drop k)) := by
      rw [htf, heq]
    have hstep : wrapStep true ((n ++ [':']) :: [' '] :: sepWords ws) =
        (some ([] ++ ((n ++ [':']) :: [' '] :: sepWords (ws.take k)).flatten),
         [' '] :: sepWords (ws.drop k)) := by
      unfold wrapStep
      simp only [dropLeadingWs, Bool.not_true, Bool.false_and,
        Bool.false_eq_true, if_false, if_true, List.length_nil, Nat.sub_zero]
      rw [htr]
      simp [hlastfull, hlastw]
    refine ⟨k, hk0, Nat.le_of_lt hkl, ?_, Or.inr ⟨hkl, Or.inr ?_⟩⟩
    · rw [hstep, hflat k]
    · rw [hstep]
  · obtain ⟨k, hk0, hkl, heq⟩ := h3
    have htk : ws.take k ≠ [] := by
      rw [Ne, List.take_eq_nil_iff]
      cases ws with
      | nil => exact absurd rfl hne
      | cons a b => simp [Nat.pos_iff_ne_zero.mp hk0]
    have hdk : ws.drop k ≠ [] := by
      rw [Ne, List.drop_eq_nil_iff]
      exact Nat.not_le.mpr hkl
    obtain ⟨w0, rest, hdrop, hsh⟩ := sepWords_head_word (ws.drop k) hdk
    have hw0len : w0.length ≤ 68 := by
      have hmem : w0 ∈ ws := by
        have hmem2 : w0 ∈ ws.drop k := by rw [hdrop]; simp
        exact List.mem_of_mem_drop hmem2
      exact (hws w0 hmem).2.1
    have hsepdrop : ∃ tl, sepWords (ws.drop k) = w0 :: tl := by
      rcases hsh with ⟨_, hs⟩ | ⟨_, hs⟩
      · exact ⟨[], hs⟩
      · exact ⟨[' '] :: sepWords rest, hs⟩
    obtain ⟨tl, hsd⟩ := hsepdrop
    have hgroup : (n ++ [':']) :: [' '] :: (sepWords (ws.take k) ++ [[' ']]) =
        ((n ++ [':']) :: [' '] :: sepWords (ws.take k)) ++ [[' ']] := by
      simp
    have htr : takeFits 72 0 ((n ++ [':']) :: [' '] :: sepWords ws) =
        ((n ++ [':']) :: [' '] :: (sepWords (ws.take k) ++ [[' ']]),
         sepWords (ws.drop k)) := by
      rw [htf, heq]
    have hstep : wrapStep true ((n ++ [':']) :: [' '] :: sepWords ws) =
        (some ([] ++ ((n ++ [':']) :: [' '] :: sepWords (ws.take k)).flatten),
         sepWords (ws.drop k)) := by
      unfold wrapStep
      simp only [dropLeadingWs, Bool.not_true, Bool.false_and,
        Bool.false_eq_true, if_false, if_true, List.length_nil, Nat.sub_zero]
      rw [htr, hsd]
      simp only []
      rw [if_neg (by omega : ¬(w0.length > 72))]
      rw [← hsd, hgroup, List.getLast?_concat]
      have hwsp : isWsChunk [' '] = true := by decide
      simp [hwsp, List.dropLast_concat]
      rw [show ([' '] : Str) :: (sepWords (ws.take k) ++ [[' ']]) =
          ((([' '] : Str) :: sepWords (ws.take k)) ++ [[' ']]) from by simp]
      rw [List.dropLast_concat]
      simp
    refine ⟨k, hk0, Nat.le_of_lt hkl, ?_, Or.inr ⟨hkl, Or.inl ?_⟩⟩
    · rw [hstep, hflat k]
    · rw [hstep]
  · obtain ⟨w0, t, hwt, hlt, _⟩ := h4
    have hh := (hws w0 (by rw [hwt]; simp)).2.1
    rw [hwt] at hfit
    simp only [List.headD_cons] at hfit
    omega

/-!
Wrapping machinery, part 4: the outer loop groups the words into
non-empty lines, and fill renders them.
-/

theorem wrapAll_nil (fuel : Nat) (first : Bool) : wrapAll fuel first [] = [] := by
  cases fuel <;> rfl

theorem wrapAll_step_some (fuel : Nat) (first : Bool) (c0 : Str)
    (cs : List Str) (line : Str) (rest : List Str)
    (h : wrapStep first (c0 :: cs) = (some line, rest)) :
    wrapAll (fuel + 1) first (c0 :: cs) = line :: wrapAll fuel false rest := by
  show (match wrapStep first (c0 :: cs) with
    | (some line, rest) => line :: wrapAll fuel false rest
    | (none, rest) => wrapAll fuel first rest) = _
  rw [h]

theorem take_ne_nil_pos {k : Nat} (ws : List Str) (hk : 0 < k)
    (hne : ws ≠ []) : ws.take k ≠ [] := by
  rw [Ne, List.take_eq_nil_iff]
  cases ws with
  | nil => exact absurd rfl hne
  | cons a b => simp [Nat.pos_iff_ne_zero.mp hk]

theorem wrapAll_cont (fuel : Nat) :
    ∀ (ws : List Str), ws ≠ [] → (∀ w ∈ ws, goodWord w) → ws.length ≤ fuel →
    ∀ entry, (entry = sepWords ws ∨ entry = [' '] :: sepWords ws) →
    ∃ gs, gs ≠ [] ∧ (∀ g ∈ gs, g ≠ []) ∧ gs.flatten = ws ∧
      wrapAll fuel false entry = gs.map (fun g => indent4 ++ joinWords g) := by
  induction fuel with
  | zero =>
    intro ws hne _ hlen _ _
    cases ws with
    | nil => exact absurd rfl hne
    | cons a b => simp at hlen
  | succ f ih =>
    intro ws hne hws hlen entry hentry
    obtain ⟨e0, etail, hentcons⟩ : ∃ e0 etail, entry = e0 :: etail := by
      rcases hentry with rfl | rfl
      · obtain ⟨w0, rest, rfl, hsh⟩ := sepWords_head_word ws hne
        rcases hsh with ⟨_, hs⟩ | ⟨_, hs⟩ <;> rw [hs]
        · exact ⟨w0, [], rfl⟩
        · exact ⟨w0, [' '] :: sepWords rest, rfl⟩
      · exact ⟨[' '], sepWords ws, rfl⟩
    obtain ⟨k, hk0, hkle, hfst, hrest⟩ := wrapStep_cont ws hne hws entry hentry
    rcases hrest with ⟨hk, hr⟩ | ⟨hk, hr⟩
    · have hpair : wrapStep false (e0 :: etail) =
          (some (indent4 ++ joinWords (ws.take k)), []) := by
        rw [← hentcons]
        have heta : wrapStep false entry =
            ((wrapStep false entry).1, (wrapStep false entry).2) := rfl
        rw [heta, hfst, hr]
      refine ⟨[ws], by simp, by simpa using hne, by simp, ?_⟩
      rw [hentcons, wrapAll_step_some f false e0 etail _ _ hpair, wrapAll_nil]
      subst hk
      simp [List.take_length]
    · have hlen2 : (ws.drop k).length ≤ f := by
        rw [List.length_drop]
        omega
      have hdne : ws.drop k ≠ [] := by
        rw [Ne, List.drop_eq_nil_iff]
        exact Nat.not_le.mpr hk
      have hdws : ∀ w ∈ ws.drop k, goodWord w :=
        fun w hw => hws w (List.mem_of_mem_drop hw)
      have hpair : wrapStep false (e0 :: etail) =
          (some (indent4 ++ joinWords (ws.take k)),
           (wrapStep false entry).2) := by
        rw [← hentcons]
        have heta : wrapStep false entry =
            ((wrapStep false entry).1, (wrapStep false entry).2) := rfl
        rw [heta, hfst]
      obtain ⟨gs, hgne, hgmem, hgflat, hgall⟩ :=
        ih (ws.drop k) hdne hdws hlen2 ((wrapStep false entry).2)
          (by rcases hr with h | h
              · exact Or.inl h
              · exact Or.inr h)
      refine ⟨ws.take k :: gs, by simp, ?_, ?_, ?_⟩
      · intro g hg
        rcases List.mem_cons.mp hg with rfl | hg2
        · exact take_ne_nil_pos ws hk0 hne
        · exact hgmem g hg2
      · simp [hgflat, List.take_append_drop]
      · rw [hentcons, wrapAll_step_some f false e0 etail _ _ hpair, hgall]
        rfl

theorem wrapAll_first (fuel : Nat) (n : Str) (ws : List Str) (hn : goodName n)
    (hws : ∀ w ∈ ws, goodWord w) (hne : ws ≠ [])
    (hfit : n.length + 2 + (ws.headD []).length ≤ 72)
    (hfuel : ws.length + 1 ≤ fuel) :
    ∃ g0 gs, g0 ≠ [] ∧ (∀ g ∈ gs, g ≠ []) ∧ (g0 :: gs).flatten = ws ∧
      wrapAll fuel true ((n ++ [':']) :: [' '] :: sepWords ws) =
        headerLine n (joinWords g0) ::
          gs.map (fun g => indent4 ++ joinWords g) := by
  cases fuel with
  | zero => omega
  | succ f =>
    obtain ⟨k, hk0, hkle, hfst, hrest⟩ := wrapStep_first n ws hn hws hne hfit
    rcases hrest with ⟨hk, hr⟩ | ⟨hk, hr⟩
    · have hpair : wrapStep true ((n ++ [':']) :: [' '] :: sepWords ws) =
          (some (headerLine n (joinWords (ws.take k))), []) := by
        have heta : wrapStep true ((n ++ [':']) :: [' '] :: sepWords ws) =
            ((wrapStep true ((n ++ [':']) :: [' '] :: sepWords ws)).1,
             (wrapStep true ((n ++ [':']) :: [' '] :: sepWords ws)).2) := rfl
        rw [heta, hfst, hr]
      refine ⟨ws, [], hne, by simp, by simp, ?_⟩
      rw [wrapAll_step_some f true _ _ _ _ hpair, wrapAll_nil]
      subst hk
      simp [List.take_length]
    · have hlen2 : (ws.drop k).length ≤ f := by
        rw [List.length_drop]
        omega
      have hdne : ws.drop k ≠ [] := by
        rw [Ne, List.drop_eq_nil_iff]
        exact Nat.not_le.mpr hk
      have hdws : ∀ w ∈ ws.drop k, goodWord w :=
        fun w hw => hws w (List.mem_of_mem_drop hw)
      obtain ⟨gs, hgne, hgmem, hgflat, hgall⟩ :=
        wrapAll_cont f (ws.drop k) hdne hdws hlen2
          ((wrapStep true ((n ++ [':']) :: [' '] :: sepWords ws)).2)
          (by rcases hr with h | h
              · exact Or.inl h
              · exact Or.inr h)
      have hpair : wrapStep true ((n ++ [':']) :: [' '] :: sepWords ws) =
          (some (headerLine n (joinWords (ws.take k))),
           (wrapStep true ((n ++ [':']) :: [' '] :: sepWords ws)).2) := by
        have heta : wrapStep true ((n ++ [':']) :: [' '] :: sepWords ws) =
            ((wrapStep true ((n ++ [':']) :: [' '] :: sepWords ws)).1,
             (wrapStep true ((n ++ [':']) :: [' '] :: sepWords ws)).2) := rfl
        rw [heta, hfst]
      refine ⟨ws.take k, gs, take_ne_nil_pos ws hk0 hne, hgmem, ?_, ?_⟩
      · simp [hgflat, List.take_append_drop]
      · rw [wrapAll_step_some f true _ _ _ _ hpair, hgall]

theorem sepWords_length_ge (ws : List Str) :
    ws.length ≤ (sepWords ws).length := by
  induction ws with
  | nil => simp [sepWords]
  | cons w t ih =>
    cases t with
    | nil => simp [sepWords]
    | cons w2 t2 =>
      rw [sepWords_cons w _ (by simp)]
      simp only [List.length_cons] at ih ⊢
      omega

theorem intercalate_nl (l : Str) (ls : List Str) :
    List.intercalate ['\n'] (l :: ls) =
      l ++ (ls.map (fun x => '\n' :: x)).flatten := by
  induction ls generalizing l with
  | nil => simp [List.intercalate]
  | cons x xs ih =>
    have h1 : List.intercalate ['\n'] (l :: x :: xs) =
        l ++ ['\n'] ++ List.intercalate ['\n'] (x :: xs) := by
      simp [List.intercalate, List.intersperse]
    rw [h1, ih x]
    simp

theorem joinWords_mem_chars (ws : List Str) (c : Char)
    (h : c ∈ joinWords ws) : (∃ w ∈ ws, c ∈ w) ∨ c = ' ' := by
  induction ws with
  | nil => cases h
  | cons w t ih =>
    cases t with
    | nil => exact Or.inl ⟨w, by simp, h⟩
    | cons w2 t2 =>
      rw [show joinWords (w :: w2 :: t2) = w ++ ' ' :: joinWords (w2 :: t2)
        from rfl] at h
      rcases List.mem_append.mp h with h1 | h1
      · exact Or.inl ⟨w, by simp, h1⟩
      · rcases List.mem_cons.mp h1 with rfl | h2
        · exact Or.inr rfl
        · rcases ih h2 with ⟨w3, hw3, hc⟩ | h3
          · exact Or.inl ⟨w3, by simp [hw3], hc⟩
          · exact Or.inr h3

theorem headerLine_chars (n : Str) (ws : List Str) (hn : goodName n)
    (hws : ∀ w ∈ ws, goodWord w) :
    ∀ c ∈ headerLine n (joinWords ws), isPySpace c = false ∨ c = ' ' := by
  intro c hc
  unfold headerLine at hc
  rcases List.mem_append.mp hc with h1 | h1
  · exact Or.inl ((nameColon_nonspace n hn).2 c (by simp [h1]))
  · rcases List.mem_cons.mp h1 with rfl | h2
    · exact Or.inl (by decide)
    · rcases List.mem_cons.mp h2 with rfl | h3
      · exact Or.inr rfl
      · rcases joinWords_mem_chars ws c h3 with ⟨w, hw, hcw⟩ | h4
        · exact Or.inl ((goodWord_nonspace w (hws w hw)).2 c hcw)
        · exact Or.inr h4

theorem fill_headerLine (n : Str) (ws : List Str) (hn : goodName n)
    (hws : ∀ w ∈ ws, goodWord w) (hne : ws ≠ [])
    (hfit : n.length + 2 + (ws.headD []).length ≤ 72) :
    ∃ g0 gs, g0 ≠ [] ∧ (∀ g ∈ gs, g ≠ []) ∧ (g0 :: gs).flatten = ws ∧
      fill (headerLine n (joinWords ws)) =
        headerLine n (joinWords g0) ++
          (gs.map (fun g => '\n' :: (indent4 ++ joinWords g))).flatten := by
  have hmunge : mungeWhitespace (headerLine n (joinWords ws)) =
      headerLine n (joinWords ws) :=
    mungeWhitespace_id _ (headerLine_chars n ws hn hws)
  have hchunks : chunksOf (headerLine n (joinWords ws)) =
      (n ++ [':']) :: [' '] :: sepWords ws :=
    chunksOf_headerLine n ws hn hws hne
  have hfuel : ws.length + 1 ≤
      sumLen ((n ++ [':']) :: [' '] :: sepWords ws) +
        ((n ++ [':']) :: [' '] :: sepWords ws).length + 1 := by
    have h1 := sepWords_length_ge ws
    simp only [List.length_cons]
    omega
  obtain ⟨g0, gs, hg0, hgmem, hflat2, hwrap⟩ :=
    wrapAll_first
      (sumLen ((n ++ [':']) :: [' '] :: sepWords ws) +
        ((n ++ [':']) :: [' '] :: sepWords ws).length + 1)
      n ws hn hws hne hfit hfuel
  refine ⟨g0, gs, hg0, hgmem, hflat2, ?_⟩
  unfold fill
  rw [hmunge, hchunks]
  simp only []
  rw [hwrap, intercalate_nl]
  rw [List.map_map]
  rfl

/-!
Wrapping machinery, part 5: the wrapped header line unfolds back to
itself.
-/

theorem joinWords_cons_ne (w : Str) (t : List Str) (h : t ≠ []) :
    joinWords (w :: t) = w ++ ' ' :: joinWords t := by
  cases t with
  | nil => exact absurd rfl h
  | cons a b => rfl

theorem joinWords_append (a b : List Str) (ha : a ≠ []) (hb : b ≠ []) :
    joinWords (a ++ b) = joinWords a ++ ' ' :: joinWords b := by
  induction a with
  | nil => exact absurd rfl ha
  | cons w t ih =>
    cases t with
    | nil =>
      rw [List.singleton_append, joinWords_cons_ne w b hb]
      rfl
    | cons w2 t2 =>
      have htb : (w2 :: t2 : List Str) ++ b ≠ [] := by simp
      rw [List.cons_append, joinWords_cons_ne w _ htb,
        ih (by simp), joinWords_cons_ne w (w2 :: t2) (by simp)]
      simp

theorem joinWords_flatten_groups (gs : List (List Str)) :
    ∀ (g0 : List Str), g0 ≠ [] → (∀ g ∈ gs, g ≠ []) →
    joinWords ((g0 :: gs).flatten) =
      joinWords g0 ++ (gs.map (fun g => ' ' :: joinWords g)).flatten := by
  induction gs with
  | nil =>
    intro g0 _ _
    simp
  | cons g1 rest ih =>
    intro g0 h0 hmem
    have hg1 : g1 ≠ [] := hmem g1 (by simp)
    have hfne : ((g1 :: rest).flatten : List Str) ≠ [] := by
      simp only [List.flatten_cons]
      intro hcon
      exact hg1 (List.append_eq_nil.mp hcon).1
    have h1 : ((g0 :: g1 :: rest).flatten : List Str) =
        g0 ++ (g1 :: rest).flatten := by simp
    rw [h1, joinWords_append g0 _ h0 hfne, ih g1 hg1
      (fun g hg => hmem g (by simp [hg]))]
    simp

theorem joinWords_good_ne_nil (g : List Str) (hne : g ≠ [])
    (hws : ∀ w ∈ g, goodWord w) : joinWords g ≠ [] := by
  obtain ⟨c, t, hct, _⟩ := joinWords_head g hne
    (fun w hw => goodWord_nonspace w (hws w hw))
  rw [hct]
  simp

theorem joinWords_noNl (g : List Str) (hws : ∀ w ∈ g, goodWord w) :
    '\n' ∉ joinWords g := by
  intro hmem
  rcases joinWords_mem_chars g '\n' hmem with ⟨w, hw, hc⟩ | h1
  · have := (goodWord_nonspace w (hws w hw)).2 '\n' hc
    simp [isPySpace] at this
  · cases h1

theorem headerLine_noNl (n : Str) (ws : List Str) (hn : goodName n)
    (hws : ∀ w ∈ ws, goodWord w) : '\n' ∉ headerLine n (joinWords ws) := by
  intro hmem
  rcases headerLine_chars n ws hn hws '\n' hmem with h1 | h1
  · simp [isPySpace] at h1
  · cases h1

theorem joinWords_noCr (g : List Str) (hws : ∀ w ∈ g, goodWord w) :
    '\r' ∉ joinWords g := by
  intro hmem
  rcases joinWords_mem_chars g '\r' hmem with ⟨w, hw, hc⟩ | h1
  · have := (goodWord_nonspace w (hws w hw)).2 '\r' hc
    simp [isPySpace] at this
  · cases h1

theorem headerLine_noCr (n : Str) (ws : List Str) (hn : goodName n)
    (hws : ∀ w ∈ ws, goodWord w) : '\r' ∉ headerLine n (joinWords ws) := by
  intro hmem
  rcases headerLine_chars n ws hn hws '\r' hmem with h1 | h1
  · simp [isPySpace] at h1
  · cases h1

theorem headerLine_append (n : Str) (a b : Str) :
    headerLine n (a ++ b) = headerLine n a ++ b := by
  simp [headerLine]

theorem unfold_fill_headerLine (n : Str) (ws : List Str) (hn : goodName n)
    (hws : ∀ w ∈ ws, goodWord w) (hne : ws ≠ [])
    (hfit : n.length + 2 + (ws.headD []).length ≤ 72) :
    unfold (fill (headerLine n (joinWords ws))) =
      some (headerLine n (joinWords ws)) := by
  obtain ⟨g0, gs, hg0, hgmem, hflat2, hfill⟩ :=
    fill_headerLine n ws hn hws hne hfit
  have hg0w : ∀ w ∈ g0, goodWord w := by
    intro w hw
    exact hws w (by rw [← hflat2]; simp [hw])
  have hgsw : ∀ g ∈ gs, ∀ w ∈ g, goodWord w := by
    intro g hg w hw
    refine hws w ?_
    rw [← hflat2]
    simp only [List.flatten_cons, List.mem_append]
    exact Or.inr (List.mem_flatten.mpr ⟨g, hg, hw⟩)
  have hmapform : (gs.map (fun g => '\n' :: (indent4 ++ joinWords g))).flatten =
      ((gs.map (fun g => (indent4, joinWords g))).map
        (fun pc => '\n' :: (pc.1 ++ pc.2))).flatten := by
    rw [List.map_map]
    rfl
  have hcond : ∀ pc ∈ gs.map (fun g => (indent4, joinWords g)),
      (∀ c ∈ pc.1, c = ' ' ∨ c = '\t') ∧
      pc.2 ≠ [] ∧
      (∀ c ∈ pc.2.take 1, ¬(c = ' ' ∨ c = '\t' ∨ c = '\n')) ∧
      '\n' ∉ pc.2 := by
    intro pc hpc
    obtain ⟨g, hg, rfl⟩ := List.mem_map.mp hpc
    refine ⟨?_, ?_, ?_, ?_⟩
    · intro c hc
      have : c = ' ' := by
        have h4 : indent4 = [' ', ' ', ' ', ' '] := by decide
        rw [h4] at hc
        simpa using hc
      exact Or.inl this
    · exact joinWords_good_ne_nil g (hgmem g hg) (hgsw g hg)
    · intro c hc
      obtain ⟨ch, ct, hct, hcsp⟩ := joinWords_head g (hgmem g hg)
        (fun w hw => goodWord_nonspace w (hgsw g hg w hw))
      rw [hct] at hc
      simp at hc
      subst hc
      intro hcon
      rcases hcon with h1 | h1 | h1 <;> rw [h1] at hcsp <;>
        simp [isPySpace] at hcsp
    · exact fun hmem => joinWords_noNl g (hgsw g hg) hmem
  have hrej := unfold_rejoin (gs.map (fun g => (indent4, joinWords g)))
    (headerLine n (joinWords g0))
    (headerLine_noNl n g0 hn hg0w) hcond
  rw [hfill, hmapform]
  unfold unfold
  rw [hrej]
  have hjoin : headerLine n (joinWords g0) ++
      ((gs.map (fun g => (indent4, joinWords g))).map
        (fun pc => ' ' :: pc.2)).flatten =
      headerLine n (joinWords ws) := by
    rw [List.map_map]
    have hws2 : joinWords ws =
        joinWords g0 ++ (gs.map (fun g => ' ' :: joinWords g)).flatten := by
      rw [← hflat2]
      exact joinWords_flatten_groups gs g0 hg0 hgmem
    rw [hws2, headerLine_append]
    rfl
  rw [hjoin]

/-!
Claim C7, amended.
-/

/-- C7 amended: for a header line whose value is a single-space-separated
sequence of words of at most 68 characters (no whitespace or hyphen
characters), with a well-formed field name short enough that the first
word fits the first line, the wrapper at 72 columns breaks only at word
boundaries — the output is the words regrouped intact onto lines, each
continuation line indented with exactly four spaces — and wrap-then-unfold
reproduces the original line exactly.  (As stated over all header values
the claim fails: `break_long_words` splits an over-long word, see the
counterexample.) -/
theorem c7_wrap_amended (n : Str) (ws : List Str) (hn : goodName n)
    (hws : ∀ w ∈ ws, goodWord w) (hne : ws ≠ [])
    (hfit : n.length + 2 + (ws.headD []).length ≤ 72) :
    ∃ g0 gs, g0 ≠ [] ∧ (∀ g ∈ gs, g ≠ []) ∧ (g0 :: gs).flatten = ws ∧
      fill (headerLine n (joinWords ws)) =
        headerLine n (joinWords g0) ++
          (gs.map (fun g => '\n' :: (indent4 ++ joinWords g))).flatten ∧
      unfold (fill (headerLine n (joinWords ws))) =
        some (headerLine n (joinWords ws)) := by
  obtain ⟨g0, gs, hg0, hgmem, hflat2, hfill⟩ :=
    fill_headerLine n ws hn hws hne hfit
  exact ⟨g0, gs, hg0, hgmem, hflat2, hfill,
    unfold_fill_headerLine n ws hn hws hne hfit⟩

/-- Witness for the amended C7 at a value long enough to wrap: ten
eight-character words under the name `subject`. -/
theorem c7_wrap_amended_witness :
    goodName (strL "subject") ∧
    (∀ w ∈ [strL "wordaaaa", strL "wordbbbb", strL "wordcccc",
        strL "worddddd", strL "wordeeee", strL "wordffff", strL "wordgggg",
        strL "wordhhhh", strL "wordiiii", strL "wordjjjj"], goodWord w) ∧
    (∃ g0 gs, g0 ≠ [] ∧ (∀ g ∈ gs, g ≠ []) ∧
      (g0 :: gs).flatten =
        [strL "wordaaaa", strL "wordbbbb", strL "wordcccc",
         strL "worddddd", strL "wordeeee", strL "wordffff", strL "wordgggg",
         strL "wordhhhh", strL "wordiiii", strL "wordjjjj"] ∧
      fill (headerLine (strL "subject")
          (joinWords [strL "wordaaaa", strL "wordbbbb", strL "wordcccc",
            strL "worddddd", strL "wordeeee", strL "wordffff",
            strL "wordgggg", strL "wordhhhh", strL "wordiiii",
            strL "wordjjjj"])) =
        headerLine (strL "subject") (joinWords g0) ++
          (gs.map (fun g => '\n' :: (indent4 ++ joinWords g))).flatten ∧
      unfold (fill (headerLine (strL "subject")
          (joinWords [strL "wordaaaa", strL "wordbbbb", strL "wordcccc",
            strL "worddddd", strL "wordeeee", strL "wordffff",
            strL "wordgggg", strL "wordhhhh", strL "wordiiii",
            strL "wordjjjj"]))) =
        some (headerLine (strL "subject")
          (joinWords [strL "wordaaaa", strL "wordbbbb", strL "wordcccc",
            strL "worddddd", strL "wordeeee", strL "wordffff",
            strL "wordgggg", strL "wordhhhh", strL "wordiiii",
            strL "wordjjjj"]))) :=
  ⟨by decide, by decide,
   c7_wrap_amended (strL "subject") _ (by decide) (by decide) (by decide)
     (by decide)⟩

/-!
Open/save round trip, part 1: generic list utilities and the line
splitter.
-/

theorem takeWhile_append_stop {α : Type} (p : α → Bool) (A : List α)
    (s : α) (B : List α) (hA : ∀ l ∈ A, p l = true) (hs : p s = false) :
    (A ++ s :: B).takeWhile p = A := by
  induction A with
  | nil => simp [List.takeWhile_cons, hs]
  | cons a t ih =>
    simp only [List.cons_append, List.takeWhile_cons, hA a (by simp)]
    simp [ih (fun l hl => hA l (by simp [hl]))]

theorem dropWhile_append_stop {α : Type} (p : α → Bool) (A : List α)
    (s : α) (B : List α) (hA : ∀ l ∈ A, p l = true) (hs : p s = false) :
    (A ++ s :: B).dropWhile p = s :: B := by
  induction A with
  | nil => simp [List.dropWhile_cons, hs]
  | cons a t ih =>
    simp only [List.cons_append, List.dropWhile_cons, hA a (by simp)]
    simp [ih (fun l hl => hA l (by simp [hl]))]

theorem map_eq_of_zip {α β γ : Type} (f : α → γ) (g : β → γ) :
    ∀ (as : List α) (bs : List β), as.length = bs.length →
    (∀ q ∈ as.zip bs, f q.1 = g q.2) → as.map f = bs.map g := by
  intro as
  induction as with
  | nil =>
    intro bs hlen _
    cases bs with
    | nil => rfl
    | cons b t => simp at hlen
  | cons a t ih =>
    intro bs hlen hq
    cases bs with
    | nil => simp at hlen
    | cons b t2 =>
      simp only [List.map_cons, List.cons.injEq]
      refine ⟨hq (a, b) (by simp), ih t2 (by simpa using hlen) ?_⟩
      intro q hqmem
      exact hq q (by simp [hqmem])

theorem flatten_map_flatten {α β : Type} (F : α → List (List β)) (l : List α) :
    (l.map (fun x => (F x).flatten)).flatten = ((l.map F).flatten).flatten := by
  induction l with
  | nil => rfl
  | cons a t ih => simp [ih]

theorem splitLinesAux_append_nl (a : Str) (b : Str) (h : '\n' ∉ a) :
    ∀ cur, splitLinesAux cur (a ++ '\n' :: b) =
      ((cur.reverse ++ a) ++ ['\n']) :: splitLinesAux [] b := by
  induction a with
  | nil =>
    intro cur
    simp [splitLinesAux]
  | cons c a2 ih =>
    intro cur
    have hc : ¬c = '\n' := fun hh => h (by simp [hh])
    simp only [List.cons_append, splitLinesAux, if_neg hc, List.append_eq]
    rw [ih (fun hh => h (by simp [hh])) (c :: cur)]
    simp

theorem splitLinesKeep_terminated (lines : List Str) (rest : Str)
    (h : ∀ l ∈ lines, '\n' ∉ l) :
    splitLinesKeep ((lines.map (fun l => l ++ ['\n'])).flatten ++ rest) =
      lines.map (fun l => l ++ ['\n']) ++ splitLinesKeep rest := by
  induction lines with
  | nil => simp
  | cons l ls ih =>
    show splitLinesAux [] _ = _
    simp only [List.map_cons, List.flatten_cons, List.append_assoc,
      List.singleton_append, List.cons_append]
    rw [splitLinesAux_append_nl l _ (h l (by simp)) []]
    simp only [List.nil_append, List.reverse_nil]
    rw [show splitLinesAux [] ((ls.map (fun l => l ++ ['\n'])).flatten ++ rest) =
      splitLinesKeep ((ls.map (fun l => l ++ ['\n'])).flatten ++ rest) from rfl]
    rw [ih (fun l2 hl2 => h l2 (by simp [hl2]))]

theorem splitLinesKeep_blocks (lineBlocks : List (List Str)) (rest : Str)
    (h : ∀ L ∈ lineBlocks, ∀ l ∈ L, '\n' ∉ l) :
    splitLinesKeep
        ((lineBlocks.map
          (fun L => (L.map (fun l => l ++ ['\n'])).flatten)).flatten ++ rest) =
      (lineBlocks.map (fun L => L.map (fun l => l ++ ['\n']))).flatten ++
        splitLinesKeep rest := by
  induction lineBlocks with
  | nil => simp
  | cons L Ls ih =>
    rw [show ((L :: Ls).map
        (fun L => (L.map (fun l => l ++ ['\n'])).flatten)).flatten ++ rest =
      (L.map (fun l => l ++ ['\n'])).flatten ++
        ((Ls.map (fun L => (L.map (fun l => l ++ ['\n'])).flatten)).flatten ++
          rest) by simp]
    rw [splitLinesKeep_terminated L _ (h L (by simp))]
    rw [ih (fun L2 hL2 => h L2 (by simp [hL2]))]
    simp

theorem intercalate_nl_cons2 (l x : Str) (xs : List Str) :
    List.intercalate ['\n'] (l :: x :: xs) =
      l ++ ['\n'] ++ List.intercalate ['\n'] (x :: xs) := by
  simp [List.intercalate, List.intersperse]

theorem intercalate_nl_terminated (l : Str) (ls : List Str) :
    List.intercalate ['\n'] (l :: ls) ++ ['\n'] =
      ((l :: ls).map (fun x => x ++ ['\n'])).flatten := by
  induction ls generalizing l with
  | nil => simp [List.intercalate]
  | cons x xs ih =>
    rw [intercalate_nl_cons2, List.append_assoc, List.append_assoc]
    rw [show ['\n'] ++ (List.intercalate ['\n'] (x :: xs) ++ ['\n']) =
      ['\n'] ++ (((x :: xs).map (fun y => y ++ ['\n'])).flatten) from by
        rw [ih x]]
    simp

theorem flatten_splitLinesAux :
    ∀ (s : Str) (cur : Str), (splitLinesAux cur s).flatten = cur.reverse ++ s := by
  intro s
  induction s with
  | nil =>
    intro cur
    by_cases h : cur = []
    · simp [splitLinesAux, h]
    · simp [splitLinesAux, h]
  | cons c cs ih =>
    intro cur
    by_cases h : c = '\n'
    · simp only [splitLinesAux, if_pos h, List.flatten_cons, ih []]
      simp [h]
    · simp only [splitLinesAux, if_neg h, ih (c :: cur)]
      simp

theorem flatten_splitLinesKeep (s : Str) : (splitLinesKeep s).flatten = s := by
  have h := flatten_splitLinesAux s []
  simpa [splitLinesKeep] using h

theorem univNl_cons_ne (c : Char) (cs : Str) (h : ¬c = '\r') :
    univNl (c :: cs) = c :: univNl cs := by
  conv_lhs => unfold univNl
  rw [if_neg h]

theorem univNl_id_of_no_cr (s : Str) (h : '\r' ∉ s) : univNl s = s := by
  induction s with
  | nil => rfl
  | cons c cs ih =>
    rw [univNl_cons_ne c cs (fun hh => h (by simp [hh]))]
    rw [ih (fun hh => h (by simp [hh]))]

theorem univNl_append_of_no_cr (a b : Str) (h : '\r' ∉ a) :
    univNl (a ++ b) = a ++ univNl b := by
  induction a with
  | nil => rfl
  | cons c cs ih =>
    rw [List.cons_append, univNl_cons_ne c _ (fun hh => h (by simp [hh]))]
    rw [ih (fun hh => h (by simp [hh]))]
    rfl

theorem splitSpAux_ne_nil (s : Str) : ∀ cur, splitSpAux cur s ≠ [] := by
  induction s with
  | nil => intro cur; simp [splitSpAux]
  | cons c cs ih =>
    intro cur
    by_cases h : c = ' '
    · simp [splitSpAux, h]
    · simp only [splitSpAux, if_neg h]
      exact ih (c :: cur)

theorem joinWords_splitSpAux :
    ∀ (s : Str) (cur : Str), joinWords (splitSpAux cur s) = cur.reverse ++ s := by
  intro s
  induction s with
  | nil =>
    intro cur
    simp [splitSpAux, joinWords]
  | cons c cs ih =>
    intro cur
    by_cases h : c = ' '
    · simp only [splitSpAux, if_pos h]
      rw [joinWords_cons_ne _ _ (splitSpAux_ne_nil cs [])]
      rw [ih []]
      simp [h]
    · simp only [splitSpAux, if_neg h]
      rw [ih (c :: cur)]
      simp

theorem joinWords_splitSp (v : Str) : joinWords (splitSp v) = v := by
  have h := joinWords_splitSpAux v []
  simpa [splitSp] using h

theorem foldKwargs_map {β : Type} (l : List β) (nm : β → Str) (fv : β → Str)
    (vv : β → Str) (h : ∀ b ∈ l, unfold (fv b) = some (vv b)) :
    foldKwargs (l.map (fun b => (nm b, fv b))) =
      l.map (fun b => (nm b, some (vv b))) := by
  induction l with
  | nil => rfl
  | cons b t ih =>
    simp only [List.map_cons, foldKwargs, h b (by simp)]
    rw [ih (fun b2 hb2 => h b2 (by simp [hb2]))]

theorem hasKey_append (d1 d2 : Dict) (k : Str) :
    hasKey (d1 ++ d2) k = (hasKey d1 k || hasKey d2 k) := by
  simp [hasKey, List.any_append]

theorem foldl_dictSet_fresh :
    ∀ (pairs : List (Str × Value)) (acc : Dict),
    (∀ k ∈ pairs.map Prod.fst, hasKey acc k = false) →
    (pairs.map Prod.fst).Nodup →
    pairs.foldl (fun d kv => dictSet d kv.1 kv.2) acc = acc ++ pairs := by
  intro pairs
  induction pairs with
  | nil => intro acc _ _; simp
  | cons kv t ih =>
    intro acc hfresh hnodup
    simp only [List.foldl_cons]
    rw [dictSet_fresh acc kv.1 kv.2 (hfresh kv.1 (by simp))]
    simp only [List.map_cons, List.nodup_cons] at hnodup
    rw [ih (acc ++ [(kv.1, kv.2)]) ?_ hnodup.2]
    · simp
    · intro k hk
      rw [hasKey_append]
      have h1 : hasKey acc k = false := hfresh k (by simp [hk])
      have h2 : hasKey [(kv.1, kv.2)] k = false := by
        simp only [hasKey, List.any_cons, List.any_nil, Bool.or_false]
        have hne : ¬kv.1 = k := fun hh => hnodup.1 (hh.symm ▸ hk)
        simp [hne]
      rw [h1, h2]
      rfl

theorem dictOfPairs_nodup (pairs : List (Str × Value))
    (h : (pairs.map Prod.fst).Nodup) : dictOfPairs pairs = pairs := by
  unfold dictOfPairs
  rw [foldl_dictSet_fresh pairs [] (fun k _ => rfl) h]
  rfl

/-!
Open/save round trip, part 2: the feedparser header loop on a list of
well-formed header blocks.
-/

theorem span_colon (n r : Str) (h : ∀ c ∈ n, ¬c = ':') :
    (n ++ ':' :: r).span (fun d => !(d = ':')) = (n, ':' :: r) := by
  rw [List.span_eq_take_drop]
  simp only [Prod.mk.injEq]
  exact ⟨takeWhile_append_stop _ n ':' r
      (fun c hc => by simp [h c hc]) (by simp),
    dropWhile_append_stop _ n ':' r
      (fun c hc => by simp [h c hc]) (by simp)⟩

theorem parseHdrsAux_conts (more : List Str) :
    ∀ (cls : List Str) (nm : Str) (parts : List Str) (acc : List (Str × Str)),
    (∀ l ∈ cls, ∃ c r2, l = c :: r2 ∧ (c = ' ' ∨ c = '\t')) →
    parseHdrsAux (some (nm, parts)) acc (cls ++ more) =
      parseHdrsAux (some (nm, parts ++ cls)) acc more := by
  intro cls
  induction cls with
  | nil => intro nm parts acc _; simp
  | cons l ls ih =>
    intro nm parts acc h
    obtain ⟨c, r2, hl, hc⟩ := h l (by simp)
    have hcond : (c = ' ' || c = '\t') = true := by
      rcases hc with hc | hc <;> simp [hc]
    subst hl
    show parseHdrsAux (some (nm, parts)) acc ((c :: r2) :: (ls ++ more)) = _
    simp only [parseHdrsAux, hcond, if_true]
    rw [ih nm (parts ++ [c :: r2]) acc (fun l2 hl2 => h l2 (by simp [hl2]))]
    simp

theorem parseHdrsAux_flush_next (nv : Str × List Str) (acc : List (Str × Str))
    (c : Char) (r2 : Str) (ls : List Str) (hc : ¬(c = ' ' ∨ c = '\t')) :
    parseHdrsAux (some nv) acc ((c :: r2) :: ls) =
      parseHdrsAux none (acc ++ [flushHeader nv.1 nv.2]) ((c :: r2) :: ls) := by
  have hcond : (c = ' ' || c = '\t') = false := by
    simp only [Bool.or_eq_false_iff, decide_eq_false_iff_not]
    exact ⟨fun hh => hc (Or.inl hh), fun hh => hc (Or.inr hh)⟩
  simp only [parseHdrsAux, hcond, Bool.false_eq_true, if_false]

theorem parseHdrsAux_blocks :
    ∀ (blocks : List (Str × Str × List Str)) (acc : List (Str × Str)),
    (∀ b ∈ blocks,
       b.1 ≠ [] ∧ (∀ c ∈ b.1, ¬c = ':') ∧
       (∀ hd ∈ b.1.take 1, ¬(hd = ' ' ∨ hd = '\t')) ∧
       (∀ l ∈ b.2.2, ∃ c r2, l = c :: r2 ∧ (c = ' ' ∨ c = '\t'))) →
    parseHdrsAux none acc
        ((blocks.map (fun b => (b.1 ++ ':' :: b.2.1) :: b.2.2)).flatten) =
      acc ++ blocks.map
        (fun b => (b.1, ((lstrip b.2.1 :: b.2.2).flatten).dropLast)) := by
  intro blocks
  induction blocks with
  | nil => intro acc _; simp [parseHdrsAux]
  | cons b bs ih =>
    intro acc h
    obtain ⟨hne, hncol, hhd, hcls⟩ := h b (by simp)
    obtain ⟨nh, ntail, hn⟩ : ∃ nh ntail, b.1 = nh :: ntail := by
      cases hb : b.1 with
      | nil => exact absurd hb hne
      | cons x y => exact ⟨x, y, rfl⟩
    have hnh : ¬(nh = ' ' ∨ nh = '\t') := hhd nh (by simp [hn])
    have hcond : (nh = ' ' || nh = '\t') = false := by
      simp only [Bool.or_eq_false_iff, decide_eq_false_iff_not]
      exact ⟨fun hh => hnh (Or.inl hh), fun hh => hnh (Or.inr hh)⟩
    have hline : b.1 ++ ':' :: b.2.1 = nh :: (ntail ++ ':' :: b.2.1) := by
      rw [hn]; rfl
    have hspan : (b.1 ++ ':' :: b.2.1).span (fun d => !(d = ':')) =
        (b.1, ':' :: b.2.1) := span_colon _ _ hncol
    simp only [List.map_cons, List.flatten_cons]
    rw [show ((b.1 ++ ':' :: b.2.1) :: b.2.2) ++
        (bs.map (fun b => (b.1 ++ ':' :: b.2.1) :: b.2.2)).flatten =
      (b.1 ++ ':' :: b.2.1) :: (b.2.2 ++
        (bs.map (fun b => (b.1 ++ ':' :: b.2.1) :: b.2.2)).flatten) from by simp]
    rw [hline]
    show parseHdrsAux none acc ((nh :: (ntail ++ ':' :: b.2.1)) :: _) = _
    simp only [parseHdrsAux, hcond, Bool.false_eq_true, if_false]
    rw [← hline, hspan]
    show parseHdrsAux (some (b.1, [lstrip b.2.1])) acc _ = _
    rw [parseHdrsAux_conts _ b.2.2 b.1 [lstrip b.2.1] acc hcls]
    cases hbs : bs with
    | nil =>
      simp only [hbs, List.map_nil, List.flatten_nil]
      show acc ++ [flushHeader b.1 ([lstrip b.2.1] ++ b.2.2)] = _
      simp [flushHeader]
    | cons b2 bs2 =>
      obtain ⟨hne2, _, hhd2, _⟩ := h b2 (by simp [hbs])
      obtain ⟨nh2, ntail2, hn2⟩ : ∃ nh2 ntail2, b2.1 = nh2 :: ntail2 := by
        cases hb2 : b2.1 with
        | nil => exact absurd hb2 hne2
        | cons x y => exact ⟨x, y, rfl⟩
      have hnh2 : ¬(nh2 = ' ' ∨ nh2 = '\t') := hhd2 nh2 (by simp [hn2])
      rw [show ((b2 :: bs2).map (fun b => (b.1 ++ ':' :: b.2.1) :: b.2.2)).flatten =
        (b2.1 ++ ':' :: b2.2.1) :: (b2.2.2 ++
          ((bs2.map (fun b => (b.1 ++ ':' :: b.2.1) :: b.2.2)).flatten)) from by
            simp]
      rw [show b2.1 ++ ':' :: b2.2.1 = nh2 :: (ntail2 ++ ':' :: b2.2.1) from by
        rw [hn2]; rfl]
      rw [parseHdrsAux_flush_next _ acc nh2 _ _ hnh2]
      rw [show (nh2 :: (ntail2 ++ ':' :: b2.2.1)) :: (b2.2.2 ++
          ((bs2.map (fun b => (b.1 ++ ':' :: b.2.1) :: b.2.2)).flatten)) =
        ((b2 :: bs2).map (fun b => (b.1 ++ ':' :: b.2.1) :: b.2.2)).flatten from by
          simp [hn2]]
      rw [← hbs]
      rw [ih (acc ++ [flushHeader b.1 ([lstrip b.2.1] ++ b.2.2)])
        (fun b3 hb3 => h b3 (by simp [hb3]))]
      simp [flushHeader]

/-!
Open/save round trip, part 3: the physical lines a single saved field
produces, and the parse of those lines back to the original value.
-/

theorem wrapStep_empty_value (n : Str) (hn : goodName n) :
    wrapStep true [n ++ [':'], [' ']] = (some (n ++ [':']), []) := by
  have hn72 : n.length + 2 ≤ 72 := hn.2.2
  have hcond1 : 0 + (n ++ [':']).length ≤ 72 := by
    simp only [List.length_append, List.length_singleton]
    omega
  have hcond2 : 0 + (n ++ [':']).length + ([' '] : Str).length ≤ 72 := by
    simp only [List.length_append, List.length_singleton]
    omega
  have htr : takeFits 72 0 [n ++ [':'], [' ']] = ([n ++ [':'], [' ']], []) := by
    simp only [takeFits, if_pos hcond1, if_pos hcond2]
  have hlastfull : ([n ++ [':'], [' ']] : List Str).getLast? = some [' '] := by
    rw [getLast?_cons_ne _ [[' ']] (by simp)]
    rfl
  have hwsp : isWsChunk [' '] = true := by decide
  unfold wrapStep
  simp only [dropLeadingWs, Bool.not_true, Bool.false_and,
    Bool.false_eq_true, if_false, if_true, List.length_nil, Nat.sub_zero]
  rw [htr]
  simp [hlastfull, hwsp]

theorem fill_headerLine_empty (n : Str) (hn : goodName n) :
    fill (headerLine n []) = n ++ [':'] := by
  have hmunge : mungeWhitespace (headerLine n []) = headerLine n [] := by
    apply mungeWhitespace_id
    intro c hc
    unfold headerLine at hc
    rcases List.mem_append.mp hc with h1 | h1
    · exact Or.inl ((nameColon_nonspace n hn).2 c (by simp [h1]))
    · rcases List.mem_cons.mp h1 with rfl | h2
      · exact Or.inl (by decide)
      · rcases List.mem_cons.mp h2 with rfl | h3
        · exact Or.inr rfl
        · cases h3
  unfold fill
  rw [hmunge, chunksOf_headerLine_empty n hn]
  simp only []
  rw [show sumLen [n ++ [':'], [' ']] +
      ([n ++ [':'], [' ']] : List Str).length + 1 =
    (sumLen [n ++ [':'], [' ']] + 2) + 1 from by simp]
  rw [wrapAll_step_some _ true _ _ _ _ (wrapStep_empty_value n hn)]
  rw [wrapAll_nil]
  simp [List.intercalate]

theorem terminated_shuffle (f : List Str → Str) :
    ∀ (gs : List (List Str)) (pre : Str),
    pre ++ ['\n'] ++ (gs.map (fun g => f g ++ ['\n'])).flatten =
      (pre ++ (gs.map (fun g => '\n' :: f g)).flatten) ++ ['\n'] := by
  intro gs
  induction gs with
  | nil => intro pre; simp
  | cons g rest ih =>
    intro pre
    simp only [List.map_cons, List.flatten_cons]
    rw [show pre ++ ['\n'] ++
        ((f g ++ ['\n']) ++ (rest.map (fun g => f g ++ ['\n'])).flatten) =
      (pre ++ '\n' :: f g) ++ ['\n'] ++
        (rest.map (fun g => f g ++ ['\n'])).flatten from by simp]
    rw [ih (pre ++ '\n' :: f g)]
    simp

theorem isBlankLine_false_of_mem (l : Str) (c : Char) (hc : c ∈ l)
    (hcs : isPySpace c = false) : isBlankLine l = false := by
  cases hall : isBlankLine l
  · rfl
  · exfalso
    simp only [isBlankLine, List.all_eq_true] at hall
    have := hall c hc
    rw [hcs] at this
    cases this

theorem lstrip_cons_space (s : Str) : lstrip (' ' :: s) = lstrip s := rfl

theorem lstrip_nonspace (s : Str) (c : Char) (hc : isPySpace c = false) :
    lstrip (c :: s) = c :: s := by
  simp [lstrip, List.dropWhile_cons, hc]

theorem field_block (n : Str) (v : Str) (hn : goodName n) (hv : wrapSafe v)
    (hfit : v ≠ [] → n.length + 2 + ((splitSp v).headD []).length ≤ 72) :
    ∃ (fr : Str) (cls : List Str),
      fill (headerLine n v) ++ ['\n'] =
        (((n ++ ':' :: fr) :: cls).map (fun l => l ++ ['\n'])).flatten ∧
      (∀ l ∈ (n ++ ':' :: fr) :: cls, '\n' ∉ l) ∧
      (∀ l ∈ (n ++ ':' :: fr) :: cls, '\r' ∉ l) ∧
      (∀ l ∈ cls, ∃ c r2, l = c :: r2 ∧ (c = ' ' ∨ c = '\t')) ∧
      (∀ l ∈ (n ++ ':' :: fr) :: cls, ∃ c ∈ l, isPySpace c = false) ∧
      (∀ l ∈ (n ++ ':' :: fr) :: cls, ∃ c r2, l = c :: r2 ∧
        ¬(c = '\n' ∨ c = '\r')) ∧
      unfold (((lstrip (fr ++ ['\n']) ::
        cls.map (fun l => l ++ ['\n'])).flatten).dropLast) = some v := by
  obtain ⟨nh, nt, hnht⟩ : ∃ nh nt, n = nh :: nt := by
    cases hcc : n with
    | nil => exact absurd hcc hn.1
    | cons a b => exact ⟨a, b, rfl⟩
  have hnhw : wordChar nh = true := (hn.2.1 nh (by simp [hnht])).1
  have hnhs : isPySpace nh = false := by
    unfold wordChar at hnhw
    simp at hnhw
    exact hnhw.1
  have hnhnl : ¬(nh = '\n' ∨ nh = '\r') := by
    intro hcon
    rcases hcon with h1 | h1 <;> rw [h1] at hnhs <;> simp [isPySpace] at hnhs
  by_cases hve : v = []
  · subst hve
    refine ⟨[], [], ?_, ?_, ?_, by simp, ?_, ?_, ?_⟩
    · rw [fill_headerLine_empty n hn]
      simp
    · intro l hl
      rcases List.mem_singleton.mp hl with rfl
      intro hmem
      rcases List.mem_append.mp hmem with h1 | h1
      · have h2 := (hn.2.1 '\n' h1).1
        simp [wordChar, isPySpace] at h2
      · simp at h1
    · intro l hl
      rcases List.mem_singleton.mp hl with rfl
      intro hmem
      rcases List.mem_append.mp hmem with h1 | h1
      · have h2 := (hn.2.1 '\r' h1).1
        simp [wordChar, isPySpace] at h2
      · simp at h1
    · intro l hl
      rcases List.mem_singleton.mp hl with rfl
      exact ⟨':', by simp, by decide⟩
    · intro l hl
      rcases List.mem_singleton.mp hl with rfl
      rw [hnht]
      exact ⟨nh, nt ++ [':'], by simp, hnhnl⟩
    · rw [show lstrip (([] : Str) ++ ['\n']) = [] from by decide]
      simp [unfold, unfoldM]
  · have hws : ∀ w ∈ splitSp v, goodWord w := by
      rcases hv with h1 | h1
      · exact absurd h1 hve
      · exact h1
    have hne : splitSp v ≠ [] := splitSpAux_ne_nil v []
    have hjv : joinWords (splitSp v) = v := joinWords_splitSp v
    obtain ⟨g0, gs, hg0, hgmem, hflat2, hfill⟩ :=
      fill_headerLine n (splitSp v) hn hws hne (hfit hve)
    have hg0w : ∀ w ∈ g0, goodWord w := by
      intro w hw
      exact hws w (by rw [← hflat2]; simp [hw])
    have hgsw : ∀ g ∈ gs, ∀ w ∈ g, goodWord w := by
      intro g hg w hw
      refine hws w ?_
      rw [← hflat2]
      simp only [List.flatten_cons, List.mem_append]
      exact Or.inr (List.mem_flatten.mpr ⟨g, hg, hw⟩)
    obtain ⟨jh, jt, hjht, hjhs⟩ := joinWords_head g0 hg0
      (fun w hw => goodWord_nonspace w (hg0w w hw))
    refine ⟨' ' :: joinWords g0, gs.map (fun g => indent4 ++ joinWords g),
      ?_, ?_, ?_, ?_, ?_, ?_, ?_⟩
    · rw [show fill (headerLine n v) = fill (headerLine n (joinWords (splitSp v)))
        from by rw [hjv]]
      rw [hfill]
      rw [show (n ++ ':' :: ' ' :: joinWords g0) = headerLine n (joinWords g0)
        from rfl]
      rw [List.map_cons, List.flatten_cons, List.map_map]
      rw [show ((fun l => l ++ ['\n']) ∘ fun g => indent4 ++ joinWords g) =
        (fun g => (indent4 ++ joinWords g) ++ ['\n']) from rfl]
      rw [terminated_shuffle (fun g => indent4 ++ joinWords g) gs
        (headerLine n (joinWords g0))]
    · intro l hl
      rcases List.mem_cons.mp hl with rfl | h2
      · exact headerLine_noNl n g0 hn hg0w
      · obtain ⟨g, hg, rfl⟩ := List.mem_map.mp h2
        intro hmem
        rcases List.mem_append.mp hmem with h3 | h3
        · have : ('\n' : Char) = ' ' := by
            have h4 : indent4 = [' ', ' ', ' ', ' '] := by decide
            rw [h4] at h3
            simpa using h3
          cases this
        · exact joinWords_noNl g (hgsw g hg) h3
    · intro l hl
      rcases List.mem_cons.mp hl with rfl | h2
      · exact headerLine_noCr n g0 hn hg0w
      · obtain ⟨g, hg, rfl⟩ := List.mem_map.mp h2
        intro hmem
        rcases List.mem_append.mp hmem with h3 | h3
        · have : ('\r' : Char) = ' ' := by
            have h4 : indent4 = [' ', ' ', ' ', ' '] := by decide
            rw [h4] at h3
            simpa using h3
          cases this
        · exact joinWords_noCr g (hgsw g hg) h3
    · intro l hl
      obtain ⟨g, hg, rfl⟩ := List.mem_map.mp hl
      exact ⟨' ', strL "   " ++ joinWords g, by rfl, Or.inl rfl⟩
    · intro l hl
      rcases List.mem_cons.mp hl with rfl | h2
      · exact ⟨':', by simp, by decide⟩
      · obtain ⟨g, hg, rfl⟩ := List.mem_map.mp h2
        obtain ⟨ch, ct, hct, hcsp⟩ := joinWords_head g (hgmem g hg)
          (fun w hw => goodWord_nonspace w (hgsw g hg w hw))
        exact ⟨ch, by simp [hct], hcsp⟩
    · intro l hl
      rcases List.mem_cons.mp hl with rfl | h2
      · rw [hnht]
        exact ⟨nh, nt ++ ':' :: ' ' :: joinWords g0, by simp, hnhnl⟩
      · obtain ⟨g, hg, rfl⟩ := List.mem_map.mp h2
        exact ⟨' ', strL "   " ++ joinWords g, by rfl, by decide⟩
    · rw [show (' ' :: joinWords g0) ++ ['\n'] =
        ' ' :: (joinWords g0 ++ ['\n']) from rfl]
      rw [lstrip_cons_space]
      rw [show joinWords g0 ++ ['\n'] = jh :: (jt ++ ['\n']) from by
        rw [hjht]; rfl]
      rw [lstrip_nonspace _ jh hjhs]
      rw [show (jh : Char) :: (jt ++ ['\n']) = joinWords g0 ++ ['\n'] from by
        rw [hjht]; rfl]
      rw [List.map_map]
      rw [show ((fun l => l ++ ['\n']) ∘ fun g => indent4 ++ joinWords g) =
        (fun g => (indent4 ++ joinWords g) ++ ['\n']) from rfl]
      rw [show ((joinWords g0 ++ ['\n']) ::
          (gs.map (fun g => (indent4 ++ joinWords g) ++ ['\n']))).flatten =
        joinWords g0 ++ ['\n'] ++
          (gs.map (fun g => (indent4 ++ joinWords g) ++ ['\n'])).flatten from by
        simp]
      rw [terminated_shuffle (fun g => indent4 ++ joinWords g) gs (joinWords g0)]
      rw [List.dropLast_concat]
      have hmapform :
          (gs.map (fun g => '\n' :: (indent4 ++ joinWords g))).flatten =
          ((gs.map (fun g => (indent4, joinWords g))).map
            (fun pc => '\n' :: (pc.1 ++ pc.2))).flatten := by
        rw [List.map_map]
        rfl
      have hcond : ∀ pc ∈ gs.map (fun g => (indent4, joinWords g)),
          (∀ c ∈ pc.1, c = ' ' ∨ c = '\t') ∧
          pc.2 ≠ [] ∧
          (∀ c ∈ pc.2.take 1, ¬(c = ' ' ∨ c = '\t' ∨ c = '\n')) ∧
          '\n' ∉ pc.2 := by
        intro pc hpc
        obtain ⟨g, hg, rfl⟩ := List.mem_map.mp hpc
        refine ⟨?_, ?_, ?_, ?_⟩
        · intro c hc
          have : c = ' ' := by
            have h4 : indent4 = [' ', ' ', ' ', ' '] := by decide
            rw [h4] at hc
            simpa using hc
          exact Or.inl this
        · exact joinWords_good_ne_nil g (hgmem g hg) (hgsw g hg)
        · intro c hc
          obtain ⟨ch, ct, hct, hcsp⟩ := joinWords_head g (hgmem g hg)
            (fun w hw => goodWord_nonspace w (hgsw g hg w hw))
          rw [hct] at hc
          simp at hc
          subst hc
          intro hcon
          rcases hcon with h1 | h1 | h1 <;> rw [h1] at hcsp <;>
            simp [isPySpace] at hcsp
        · exact fun hmem => joinWords_noNl g (hgsw g hg) hmem
      have hrej := unfold_rejoin (gs.map (fun g => (indent4, joinWords g)))
        (joinWords g0) (joinWords_noNl g0 hg0w) hcond
      rw [hmapform]
      unfold unfold
      rw [hrej]
      have hjoin : joinWords g0 ++
          ((gs.map (fun g => (indent4, joinWords g))).map
            (fun pc => ' ' :: pc.2)).flatten = v := by
        rw [List.map_map]
        rw [← hjv, ← hflat2]
        rw [joinWords_flatten_groups gs g0 hg0 hgmem]
        rfl
      rw [hjoin]

/-!
Open/save round trip, part 4: the header text of a fully explicitly-set
document, and the constructor on the parsed keywords.
-/

theorem headerText_congr (fields : List Field) (d1 d2 : Dict)
    (h : ∀ f ∈ fields, dictGet d1 f.name = dictGet d2 f.name) :
    headerText fields d1 = headerText fields d2 := by
  unfold headerText
  congr 1
  apply List.map_congr_left
  intro f hf
  unfold emitHeader
  rw [h f hf]

theorem headerText_zip :
    ∀ (fields : List Field) (vals : List Str),
    fields.length = vals.length →
    (fields.map Field.name).Nodup →
    headerText fields ((fields.zip vals).map (fun p => (p.1.name, some p.2))) =
      ((fields.zip vals).map
        (fun p => fill (headerLine p.1.name p.2) ++ ['\n'])).flatten := by
  intro fields
  induction fields with
  | nil => intro vals _ _; rfl
  | cons f fs ih =>
    intro vals hlen hnodup
    cases vals with
    | nil => simp at hlen
    | cons v vs =>
      simp only [List.zip_cons_cons, List.map_cons, List.flatten_cons]
      simp only [List.map_cons, List.nodup_cons] at hnodup
      have hstep : headerText (f :: fs)
          ((f.name, some v) :: (fs.zip vs).map (fun p => (p.1.name, some p.2))) =
        emitHeader f
            ((f.name, some v) :: (fs.zip vs).map (fun p => (p.1.name, some p.2)))
          ++ headerText fs
            ((f.name, some v) ::
              (fs.zip vs).map (fun p => (p.1.name, some p.2))) := by
        unfold headerText
        simp
      rw [hstep]
      have hget : emitHeader f
          ((f.name, some v) :: (fs.zip vs).map (fun p => (p.1.name, some p.2))) =
          fill (headerLine f.name v) ++ ['\n'] := by
        unfold emitHeader
        simp [dictGet, lookupKey]
      rw [hget]
      have hcongr : headerText fs
          ((f.name, some v) :: (fs.zip vs).map (fun p => (p.1.name, some p.2))) =
          headerText fs ((fs.zip vs).map (fun p => (p.1.name, some p.2))) := by
        apply headerText_congr
        intro g hg
        have hne : ¬f.name = g.name := by
          intro hh
          exact hnodup.1 (hh ▸ List.mem_map_of_mem Field.name hg)
        simp [dictGet, lookupKey, hne]
      rw [hcongr, ih vs (by simpa using hlen) hnodup.2]

theorem lookupKey_zipmap :
    ∀ (fields : List Field) (vals : List Str),
    (fields.map Field.name).Nodup →
    ∀ p ∈ fields.zip vals,
    lookupKey ((fields.zip vals).map (fun q => (q.1.name, some q.2)))
        p.1.name = some (some p.2) := by
  intro fields
  induction fields with
  | nil => intro vals _ p hp; simp at hp
  | cons f fs ih =>
    intro vals hnodup p hp
    cases vals with
    | nil => simp at hp
    | cons v vs =>
      simp only [List.zip_cons_cons, List.map_cons] at hp ⊢
      simp only [List.map_cons, List.nodup_cons] at hnodup
      rcases List.mem_cons.mp hp with rfl | hp2
      · simp [lookupKey]
      · have hpmem : p.1 ∈ fs := (List.mem_zip hp2).1
        have hne : ¬f.name = p.1.name := by
          intro hh
          exact hnodup.1 (hh ▸ List.mem_map_of_mem Field.name hpmem)
        simp only [lookupKey, if_neg hne]
        exact ih vs hnodup.2 p hp2

theorem foldl_init_fresh (kw : Dict) :
    ∀ (fields2 : List Field) (vals2 : List Str) (acc : Dict),
    fields2.length = vals2.length →
    (fields2.map Field.name).Nodup →
    (∀ p ∈ fields2.zip vals2, lookupKey kw p.1.name = some (some p.2)) →
    (∀ f ∈ fields2, hasKey acc f.name = false) →
    fields2.foldl (fun d f =>
      match lookupKey kw f.name with
      | some v => dictSet d f.name v
      | none => dictSet d f.name f.initialValue) acc =
      acc ++ (fields2.zip vals2).map (fun p => (p.1.name, some p.2)) := by
  intro fields2
  induction fields2 with
  | nil => intro vals2 acc _ _ _ _; simp
  | cons f fs ih =>
    intro vals2 acc hlen hnodup hlook hfresh
    cases vals2 with
    | nil => simp at hlen
    | cons v vs =>
      simp only [List.zip_cons_cons, List.map_cons, List.foldl_cons]
      simp only [List.map_cons, List.nodup_cons] at hnodup
      simp only [hlook (f, v) (by simp)]
      rw [dictSet_fresh acc f.name (some v) (hfresh f (by simp))]
      rw [ih vs (acc ++ [(f.name, some v)]) (by simpa using hlen) hnodup.2
        (fun p hp => hlook p (by simp [hp])) ?_]
      · simp
      · intro g hg
        rw [hasKey_append]
        have h1 : hasKey acc g.name = false := hfresh g (by simp [hg])
        have h2 : hasKey [(f.name, some v)] g.name = false := by
          simp only [hasKey, List.any_cons, List.any_nil, Bool.or_false]
          have hne : ¬f.name = g.name := by
            intro hh
            exact hnodup.1 (hh ▸ List.mem_map_of_mem Field.name hg)
          simp [hne]
        rw [h1, h2]
        rfl

theorem initBound_zip (fields : List Field) (vals : List Str)
    (hlen : fields.length = vals.length)
    (hnodup : (fields.map Field.name).Nodup) :
    initBound fields []
        ((fields.zip vals).map (fun p => (p.1.name, some p.2))) =
      (fields.zip vals).map (fun p => (p.1.name, some p.2)) := by
  show fields.foldl (fun d f =>
      match lookupKey ((fields.zip vals).map (fun p => (p.1.name, some p.2)))
          f.name with
      | some v => dictSet d f.name v
      | none => dictSet d f.name f.initialValue) [] = _
  rw [foldl_init_fresh _ fields vals [] hlen hnodup
    (fun p hp => lookupKey_zipmap fields vals hnodup p hp)
    (fun f _ => rfl)]
  simp

theorem initErrs_zip_nil (fields : List Field) (vals : List Str) :
    initErrs fields []
        ((fields.zip vals).map (fun p => (p.1.name, some p.2))) = [] := by
  unfold initErrs
  rw [if_neg (by simp)]
  rw [show (bindPositional
      (List.zip ((fields.map Field.name).take (List.length ([] : List Value)))
        ([] : List Value))
      ((fields.zip vals).map (fun p => (p.1.name, some p.2)))).1 = [] from rfl]
  rw [List.filter_eq_nil_iff.mpr ?_]
  · simp
  · intro kv hkv
    obtain ⟨p, hp, rfl⟩ := List.mem_map.mp hkv
    have hmem : p.1 ∈ fields := (List.mem_zip hp).1
    simp [List.mem_map_of_mem Field.name hmem]

theorem initDoc_zip (fields : List Field) (vals : List Str)
    (hlen : fields.length = vals.length)
    (hnodup : (fields.map Field.name).Nodup) :
    initDoc fields []
        ((fields.zip vals).map (fun p => (p.1.name, some p.2))) =
      Except.ok ((fields.zip vals).map (fun p => (p.1.name, some p.2))) := by
  unfold initDoc
  rw [initErrs_zip_nil fields vals]
  rw [initBound_zip fields vals hlen hnodup]

/-!
Open/save round trip, part 5: one block of physical lines per field, for
every field at once.
-/

theorem blocks_exist :
    ∀ (ps : List (Field × Str)),
    (∀ p ∈ ps, goodName p.1.name ∧ wrapSafe p.2 ∧
      (p.2 ≠ [] → p.1.name.length + 2 + ((splitSp p.2).headD []).length ≤ 72)) →
    ∃ bs : List (Str × Str × List Str),
      ps.length = bs.length ∧
      ∀ q ∈ ps.zip bs,
        q.2.1 = q.1.1.name ∧
        fill (headerLine q.1.1.name q.1.2) ++ ['\n'] =
          (((q.2.1 ++ ':' :: q.2.2.1) :: q.2.2.2).map
            (fun l => l ++ ['\n'])).flatten ∧
        (∀ l ∈ (q.2.1 ++ ':' :: q.2.2.1) :: q.2.2.2, '\n' ∉ l) ∧
        (∀ l ∈ (q.2.1 ++ ':' :: q.2.2.1) :: q.2.2.2, '\r' ∉ l) ∧
        (∀ l ∈ q.2.2.2, ∃ c r2, l = c :: r2 ∧ (c = ' ' ∨ c = '\t')) ∧
        (∀ l ∈ (q.2.1 ++ ':' :: q.2.2.1) :: q.2.2.2,
          ∃ c ∈ l, isPySpace c = false) ∧
        (∀ l ∈ (q.2.1 ++ ':' :: q.2.2.1) :: q.2.2.2,
          ∃ c r2, l = c :: r2 ∧ ¬(c = '\n' ∨ c = '\r')) ∧
        unfold (((lstrip (q.2.2.1 ++ ['\n']) ::
          q.2.2.2.map (fun l => l ++ ['\n'])).flatten).dropLast) =
          some q.1.2 := by
  intro ps
  induction ps with
  | nil => intro _; exact ⟨[], rfl, by simp⟩
  | cons p ps2 ih =>
    intro h
    obtain ⟨hgn, hwsafe, hfit⟩ := h p (by simp)
    obtain ⟨fr, cls, hfill, hnoNl, hnoCr, hcont, hblank, hheads, hunf⟩ :=
      field_block p.1.name p.2 hgn hwsafe hfit
    obtain ⟨bs2, hlen2, hq2⟩ := ih (fun p2 hp2 => h p2 (by simp [hp2]))
    refine ⟨(p.1.name, fr, cls) :: bs2, by simpa using hlen2, ?_⟩
    intro q hq
    rcases List.mem_cons.mp hq with rfl | hq3
    · exact ⟨rfl, hfill, hnoNl, hnoCr, hcont, hblank, hheads, hunf⟩
    · exact hq2 q hq3

theorem mem_right_of_zip {α β : Type} :
    ∀ (as : List α) (bs : List β), as.length = bs.length →
    ∀ b ∈ bs, ∃ a, (a, b) ∈ as.zip bs := by
  intro as
  induction as with
  | nil =>
    intro bs hlen b hb
    cases bs with
    | nil => simp at hb
    | cons x y => simp at hlen
  | cons a t ih =>
    intro bs hlen b hb
    cases bs with
    | nil => simp at hb
    | cons b0 t2 =>
      rcases List.mem_cons.mp hb with rfl | hb2
      · exact ⟨a, by simp⟩
      · obtain ⟨a2, ha2⟩ := ih t2 (by simpa using hlen) b hb2
        exact ⟨a2, by simp [ha2]⟩

/-!
Claim C1, amended.
-/

/-- C1 amended: for a document class whose field names are well-formed and
duplicate-free, a document whose every field holds an explicitly-set
wrap-safe value (single-space-separated words of at most 68 word
characters, the first word fitting beside the name on the first line) and
whose body is non-empty, newline-terminated and carriage-return-free,
`open` applied to the `save` output reconstructs exactly the original
field dictionary, and the reopened body equals the original body.  (As
stated over all values the claim fails: a trailing space is dropped by
the wrapper, see the counterexample; and a body containing `'\r'` is
returned with it translated to `'\n'`, because `read` goes through
`io.open(path, 'r')` and its universal-newline translation.) -/
theorem c1_roundtrip_amended (fields : List Field) (vals : List Str)
    (body : Str) (hlen : fields.length = vals.length)
    (hnames : ∀ f ∈ fields, goodName f.name)
    (hnodup : (fields.map Field.name).Nodup)
    (hvals : ∀ p ∈ fields.zip vals, wrapSafe p.2 ∧
      (p.2 ≠ [] → p.1.name.length + 2 + ((splitSp p.2).headD []).length ≤ 72))
    (hbody1 : body ≠ []) (hbody2 : body.getLast? = some '\n')
    (hbody3 : '\r' ∉ body) :
    openDoc fields
        (saveContent fields
          ((fields.zip vals).map (fun p => (p.1.name, some p.2))) body) =
      Except.ok ((fields.zip vals).map (fun p => (p.1.name, some p.2))) ∧
    readBody
        (saveContent fields
          ((fields.zip vals).map (fun p => (p.1.name, some p.2))) body) =
      body := by
  have hps : ∀ p ∈ fields.zip vals, goodName p.1.name ∧ wrapSafe p.2 ∧
      (p.2 ≠ [] →
        p.1.name.length + 2 + ((splitSp p.2).headD []).length ≤ 72) := by
    intro p hp
    exact ⟨hnames p.1 (List.mem_zip hp).1, (hvals p hp).1, (hvals p hp).2⟩
  obtain ⟨bs, hlenb, hq⟩ := blocks_exist (fields.zip vals) hps
  have hbq : ∀ b ∈ bs, ∃ q ∈ (fields.zip vals).zip bs, q.2 = b := by
    intro b hb
    obtain ⟨p, hp⟩ := mem_right_of_zip _ _ hlenb b hb
    exact ⟨(p, b), hp, rfl⟩
  have hbNoNl : ∀ b ∈ bs, ∀ l ∈ (b.1 ++ ':' :: b.2.1) :: b.2.2, '\n' ∉ l := by
    intro b hb
    obtain ⟨q, hqq, rfl⟩ := hbq b hb
    exact (hq q hqq).2.2.1
  have hbNoCr : ∀ b ∈ bs, ∀ l ∈ (b.1 ++ ':' :: b.2.1) :: b.2.2, '\r' ∉ l := by
    intro b hb
    obtain ⟨q, hqq, rfl⟩ := hbq b hb
    exact (hq q hqq).2.2.2.1
  have hbCont : ∀ b ∈ bs, ∀ l ∈ b.2.2,
      ∃ c r2, l = c :: r2 ∧ (c = ' ' ∨ c = '\t') := by
    intro b hb
    obtain ⟨q, hqq, rfl⟩ := hbq b hb
    exact (hq q hqq).2.2.2.2.1
  have hbBlank : ∀ b ∈ bs, ∀ l ∈ (b.1 ++ ':' :: b.2.1) :: b.2.2,
      ∃ c ∈ l, isPySpace c = false := by
    intro b hb
    obtain ⟨q, hqq, rfl⟩ := hbq b hb
    exact (hq q hqq).2.2.2.2.2.1
  have hbHeads : ∀ b ∈ bs, ∀ l ∈ (b.1 ++ ':' :: b.2.1) :: b.2.2,
      ∃ c r2, l = c :: r2 ∧ ¬(c = '\n' ∨ c = '\r') := by
    intro b hb
    obtain ⟨q, hqq, rfl⟩ := hbq b hb
    exact (hq q hqq).2.2.2.2.2.2.1
  have hbName : ∀ b ∈ bs, b.1 ≠ [] ∧ (∀ c ∈ b.1, ¬c = ':') ∧
      (∀ hd ∈ b.1.take 1, ¬(hd = ' ' ∨ hd = '\t')) := by
    intro b hb
    obtain ⟨q, hqq, rfl⟩ := hbq b hb
    have hgn : goodName q.1.1.name := (hps q.1 (List.mem_zip hqq).1).1
    rw [(hq q hqq).1]
    refine ⟨hgn.1, fun c hc => (hgn.2.1 c hc).2, ?_⟩
    intro hd hhd
    have hmem : hd ∈ q.1.1.name := List.mem_of_mem_take hhd
    have hw := (hgn.2.1 hd hmem).1
    have hwsp : isPySpace hd = false := by
      unfold wordChar at hw
      simp at hw
      exact hw.1
    intro hcon
    rcases hcon with h1 | h1 <;> rw [h1] at hwsp <;> simp [isPySpace] at hwsp
  have hsave : saveContent fields
      ((fields.zip vals).map (fun p => (p.1.name, some p.2))) body =
    headerText fields
        ((fields.zip vals).map (fun p => (p.1.name, some p.2))) ++
      '\n' :: body := by
    unfold saveContent
    rw [if_neg hbody1, if_pos hbody2]
    simp
  have hhdr : headerText fields
      ((fields.zip vals).map (fun p => (p.1.name, some p.2))) =
    (bs.map (fun b => (((b.1 ++ ':' :: b.2.1) :: b.2.2).map
      (fun l => l ++ ['\n'])).flatten)).flatten := by
    rw [headerText_zip fields vals hlen hnodup]
    exact congrArg List.flatten
      (map_eq_of_zip _ _ (fields.zip vals) bs hlenb
        (fun q hqq => (hq q hqq).2.1))
  have hsplit : splitLinesKeep
      (headerText fields
          ((fields.zip vals).map (fun p => (p.1.name, some p.2))) ++
        '\n' :: body) =
    ((bs.map (fun b => (b.1 ++ ':' :: b.2.1) :: b.2.2)).map
      (fun L => L.map (fun l => l ++ ['\n']))).flatten ++
      ['\n'] :: splitLinesKeep body := by
    rw [hhdr]
    have hcomp : bs.map (fun b => (((b.1 ++ ':' :: b.2.1) :: b.2.2).map
        (fun l => l ++ ['\n'])).flatten) =
      (bs.map (fun b => (b.1 ++ ':' :: b.2.1) :: b.2.2)).map
        (fun L => (L.map (fun l => l ++ ['\n'])).flatten) := by
      rw [List.map_map]
      rfl
    rw [hcomp]
    rw [splitLinesKeep_blocks
      (bs.map (fun b => (b.1 ++ ':' :: b.2.1) :: b.2.2)) ('\n' :: body)
      (by
        intro L hL
        obtain ⟨b, hb, rfl⟩ := List.mem_map.mp hL
        exact hbNoNl b hb)]
    rw [show splitLinesKeep ('\n' :: body) =
      ['\n'] :: splitLinesKeep body from rfl]
  have hhs : headerSection
      (((bs.map (fun b => (b.1 ++ ':' :: b.2.1) :: b.2.2)).map
        (fun L => L.map (fun l => l ++ ['\n']))).flatten ++
        ['\n'] :: splitLinesKeep body) =
    ((bs.map (fun b => (b.1 ++ ':' :: b.2.1) :: b.2.2)).map
      (fun L => L.map (fun l => l ++ ['\n']))).flatten := by
    unfold headerSection
    apply takeWhile_append_stop
    · intro l hl
      obtain ⟨L, hL, hlL⟩ := List.mem_flatten.mp hl
      obtain ⟨L0, hL0, rfl⟩ := List.mem_map.mp hL
      obtain ⟨b, hb, rfl⟩ := List.mem_map.mp hL0
      obtain ⟨l0, hl0, rfl⟩ := List.mem_map.mp hlL
      obtain ⟨c, r2, hlc, hcnl⟩ := hbHeads b hb l0 hl0
      rw [hlc, List.cons_append]
      show (!(decide (c = '\n') || decide (c = '\r'))) = true
      have h1 : ¬c = '\n' := fun hh => hcnl (Or.inl hh)
      have h2 : ¬c = '\r' := fun hh => hcnl (Or.inr hh)
      simp [h1, h2]
    · decide
  have hparse : parseHdrs
      (((bs.map (fun b => (b.1 ++ ':' :: b.2.1) :: b.2.2)).map
        (fun L => L.map (fun l => l ++ ['\n']))).flatten) =
    bs.map (fun b => (b.1, ((lstrip (b.2.1 ++ ['\n']) ::
      b.2.2.map (fun l => l ++ ['\n'])).flatten).dropLast)) := by
    unfold parseHdrs
    have hlines : ((bs.map (fun b => (b.1 ++ ':' :: b.2.1) :: b.2.2)).map
        (fun L => L.map (fun l => l ++ ['\n']))).flatten =
      ((bs.map (fun b =>
          (b.1, b.2.1 ++ ['\n'], b.2.2.map (fun l => l ++ ['\n'])))).map
        (fun b => (b.1 ++ ':' :: b.2.1) :: b.2.2)).flatten := by
      rw [List.map_map, List.map_map]
      congr 1
      apply List.map_congr_left
      intro b hb
      show ((b.1 ++ ':' :: b.2.1) :: b.2.2).map (fun l => l ++ ['\n']) =
        (b.1 ++ ':' :: (b.2.1 ++ ['\n'])) :: b.2.2.map (fun l => l ++ ['\n'])
      simp
    rw [hlines]
    have hcond2 : ∀ b2 ∈ bs.map (fun b =>
        (b.1, b.2.1 ++ ['\n'], b.2.2.map (fun l => l ++ ['\n']))),
        b2.1 ≠ [] ∧ (∀ c ∈ b2.1, ¬c = ':') ∧
        (∀ hd ∈ b2.1.take 1, ¬(hd = ' ' ∨ hd = '\t')) ∧
        (∀ l ∈ b2.2.2, ∃ c r2, l = c :: r2 ∧ (c = ' ' ∨ c = '\t')) := by
      intro b2 hb2
      obtain ⟨b, hb, rfl⟩ := List.mem_map.mp hb2
      obtain ⟨hne, hncol, hhd⟩ := hbName b hb
      refine ⟨hne, hncol, hhd, ?_⟩
      intro l hl
      obtain ⟨l0, hl0, rfl⟩ := List.mem_map.mp hl
      obtain ⟨c, r2, rfl, hc⟩ := hbCont b hb l0 hl0
      exact ⟨c, r2 ++ ['\n'], by simp, hc⟩
    rw [parseHdrsAux_blocks (bs.map (fun b =>
      (b.1, b.2.1 ++ ['\n'], b.2.2.map (fun l => l ++ ['\n'])))) [] hcond2]
    simp only [List.nil_append, List.map_map]
    apply List.map_congr_left
    intro b hb
    rfl
  have hfold : foldKwargs (bs.map (fun b => (b.1,
      ((lstrip (b.2.1 ++ ['\n']) ::
        b.2.2.map (fun l => l ++ ['\n'])).flatten).dropLast))) =
    (fields.zip vals).map (fun p => (p.1.name, some p.2)) := by
    have hfst : ((fields.zip vals).zip bs).map Prod.fst = fields.zip vals :=
      List.map_fst_zip _ _ (le_of_eq hlenb)
    have hsnd : ((fields.zip vals).zip bs).map Prod.snd = bs :=
      List.map_snd_zip _ _ (le_of_eq hlenb.symm)
    have h1 : bs.map (fun b => (b.1,
        ((lstrip (b.2.1 ++ ['\n']) ::
          b.2.2.map (fun l => l ++ ['\n'])).flatten).dropLast)) =
      ((fields.zip vals).zip bs).map (fun q => (q.2.1,
        ((lstrip (q.2.2.1 ++ ['\n']) ::
          q.2.2.2.map (fun l => l ++ ['\n'])).flatten).dropLast)) := by
      conv_lhs => rw [← hsnd]
      rw [List.map_map]
      rfl
    rw [h1]
    rw [foldKwargs_map ((fields.zip vals).zip bs) (fun q => q.2.1)
      (fun q => ((lstrip (q.2.2.1 ++ ['\n']) ::
        q.2.2.2.map (fun l => l ++ ['\n'])).flatten).dropLast)
      (fun q => q.1.2)
      (fun q hqq => (hq q hqq).2.2.2.2.2.2.2)]
    have h2 : ((fields.zip vals).zip bs).map (fun q => (q.2.1, some q.1.2)) =
        ((fields.zip vals).zip bs).map
          (fun q => (q.1.1.name, some q.1.2)) :=
      List.map_congr_left (fun q hqq => by rw [(hq q hqq).1])
    have h3 : ((fields.zip vals).zip bs).map
        (fun q => (q.1.1.name, some q.1.2)) =
      (fields.zip vals).map (fun p => (p.1.name, some p.2)) := by
      conv_rhs => rw [← hfst]
      rw [List.map_map]
      rfl
    rw [h2, h3]
  have hkeys : ((((fields.zip vals).map
      (fun p => (p.1.name, some p.2))).map Prod.fst)).Nodup := by
    rw [List.map_map]
    have h4 : (fields.zip vals).map
        (Prod.fst ∘ (fun p => (p.1.name, some p.2))) =
      ((fields.zip vals).map Prod.fst).map Field.name := by
      rw [List.map_map]
      rfl
    rw [h4, List.map_fst_zip fields vals (le_of_eq hlen)]
    exact hnodup
  constructor
  · show initDoc fields [] (dictOfPairs (foldKwargs (parseHdrs
      (headerSection (splitLinesKeep (saveContent fields
        ((fields.zip vals).map (fun p => (p.1.name, some p.2)))
        body)))))) = _
    rw [hsave, hsplit, hhs, hparse, hfold, dictOfPairs_nodup _ hkeys]
    exact initDoc_zip fields vals hlen hnodup
  · rw [hsave]
    unfold readBody
    have hACr : '\r' ∉ headerText fields
        ((fields.zip vals).map (fun p => (p.1.name, some p.2))) ++ ['\n'] := by
      intro hmem
      rcases List.mem_append.mp hmem with h1 | h1
      · rw [hhdr] at h1
        obtain ⟨L, hL, hlL⟩ := List.mem_flatten.mp h1
        obtain ⟨b, hb, rfl⟩ := List.mem_map.mp hL
        obtain ⟨l1, hl1, hmem2⟩ := List.mem_flatten.mp hlL
        obtain ⟨l0, hl0, rfl⟩ := List.mem_map.mp hl1
        rcases List.mem_append.mp hmem2 with h2 | h2
        · exact hbNoCr b hb l0 hl0 h2
        · simp at h2
      · simp at h1
    rw [show headerText fields
        ((fields.zip vals).map (fun p => (p.1.name, some p.2))) ++
        '\n' :: body =
      (headerText fields
          ((fields.zip vals).map (fun p => (p.1.name, some p.2))) ++ ['\n']) ++
        body from by simp]
    rw [univNl_append_of_no_cr _ body hACr]
    rw [univNl_id_of_no_cr body hbody3]
    rw [show (headerText fields
          ((fields.zip vals).map (fun p => (p.1.name, some p.2))) ++ ['\n']) ++
        body =
      headerText fields
          ((fields.zip vals).map (fun p => (p.1.name, some p.2))) ++
        '\n' :: body from by simp]
    rw [hsplit]
    rw [dropWhile_append_stop _ _ ['\n'] (splitLinesKeep body)
      (by
        intro l hl
        obtain ⟨L, hL, hlL⟩ := List.mem_flatten.mp hl
        obtain ⟨L0, hL0, rfl⟩ := List.mem_map.mp hL
        obtain ⟨b, hb, rfl⟩ := List.mem_map.mp hL0
        obtain ⟨l0, hl0, rfl⟩ := List.mem_map.mp hlL
        obtain ⟨c, hcl, hcs⟩ := hbBlank b hb l0 hl0
        have hbl : isBlankLine (l0 ++ ['\n']) = false :=
          isBlankLine_false_of_mem _ c (by simp [hcl]) hcs
        simp [hbl])
      (by decide)]
    exact flatten_splitLinesKeep body

/-- C1 amended, witness: a one-field document with value "hello world" and
body "b\n" round-trips exactly. -/
theorem c1_roundtrip_amended_witness :
    openDoc [exF]
        (saveContent [exF]
          (([exF].zip [strL "hello world"]).map
            (fun p => (p.1.name, some p.2))) (strL "b\n")) =
      Except.ok (([exF].zip [strL "hello world"]).map
        (fun p => (p.1.name, some p.2))) ∧
    readBody
        (saveContent [exF]
          (([exF].zip [strL "hello world"]).map
            (fun p => (p.1.name, some p.2))) (strL "b\n")) =
      strL "b\n" :=
  c1_roundtrip_amended [exF] [strL "hello world"] (strL "b\n") rfl
    (by decide) (by decide) (by decide) (by decide) (by decide) (by decide)

end Textbase
